import Mathlib

/-!
Verification of the f4tapir transcript merge engine.

The development shallowly embeds the Rust sources:
  - `src/timestamp.rs`  (timestamp codec: parse, format, add, round_up,
    window extraction, shifted rewriting),
  - `src/transcript/rtf.rs` (markup tokenizer),
  - `src/transcript/lines.rs` (line classifier and line writers),
  - `src/transcript/transcript.rs` (document model),
  - `src/transcript/merge.rs` (merge engine).

Text is modelled as a list of bytes (`List Nat`).  Rust panics (failed
`assert!`, out-of-range slicing) are modelled as `none` / a dedicated
`panicked` outcome; `Result`-style parse failures are distinguished from
panics where a claim depends on it.  All definitions are executable.
-/

/-- Bytes of an ASCII string literal (all concrete inputs used below are
ASCII, so `Char.toNat` agrees with the UTF-8 bytes). -/
def asciiBytes (s : String) : List Nat :=
  s.data.map Char.toNat

/-- ASCII whitespace as trimmed by `str::trim` on ASCII content. -/
def isWsp (b : Nat) : Bool :=
  b == 32 || (decide (9 ≤ b) && decide (b ≤ 13))

/-- Trim whitespace from both ends of a byte list (`str::trim`). -/
def trimBytes (l : List Nat) : List Nat :=
  ((l.dropWhile isWsp).reverse.dropWhile isWsp).reverse

/-- Contiguous byte slice `l[a..b]` (Rust slice indices). -/
def bslice (l : List Nat) (a b : Nat) : List Nat :=
  (l.drop a).take (b - a)

/-- First byte offset at which `pat` occurs in a byte list (`str::find`). -/
def findSubstr (pat : List Nat) : List Nat → Option Nat
  | [] => if pat = [] then some 0 else none
  | b :: rest =>
    if pat.isPrefixOf (b :: rest) then some 0
    else (findSubstr pat rest).map (· + 1)

/-- Fuelled digit rendering; the fuel only drives structural recursion and
is irrelevant once at least as large as the value (see
`natToDigitsAux_irrel`). -/
def natToDigitsAux : Nat → Nat → List Nat
  | 0, n => [48 + n % 10]
  | fuel + 1, n =>
    if n < 10 then [48 + n] else natToDigitsAux fuel (n / 10) ++ [48 + n % 10]

/-- Decimal digits (as ASCII bytes, most significant first) of a natural
number, as produced by Rust integer `Display`. -/
def natToDigits (n : Nat) : List Nat :=
  natToDigitsAux n n

/-- Rust `{:02}` formatting: zero-pad to at least two digits. -/
def pad2 (n : Nat) : List Nat :=
  if n < 10 then 48 :: natToDigits n else natToDigits n

/-- Value of a list of ASCII digit bytes, most significant first. -/
def digitsVal (ds : List Nat) : Nat :=
  ds.foldl (fun a d => a * 10 + (d - 48)) 0

/-- Timestamp value as stored by the packed `u32` in `timestamp.rs`:
component values together with the original digit widths of hours, minutes
and seconds (subseconds always occupy one digit).  Equality of the packed
`u32` for in-range components is exactly componentwise equality. -/
structure Timestamp where
  hours : Nat
  hoursLen : Nat
  minutes : Nat
  minutesLen : Nat
  seconds : Nat
  secondsLen : Nat
  subsecs : Nat
deriving DecidableEq, Repr

/-- In-range components, as enforced by `pack` / the subseconds assert. -/
def Timestamp.Valid (t : Timestamp) : Prop :=
  t.hours ≤ 4095 ∧ 1 ≤ t.hoursLen ∧ t.hoursLen ≤ 4 ∧
  t.minutes ≤ 59 ∧ 1 ≤ t.minutesLen ∧ t.minutesLen ≤ 2 ∧
  t.seconds ≤ 59 ∧ 1 ≤ t.secondsLen ∧ t.secondsLen ≤ 2 ∧
  t.subsecs ≤ 9

instance (t : Timestamp) : Decidable t.Valid := by
  unfold Timestamp.Valid; infer_instance

/-- `Timestamp::new_with_input_len`: the `assert!`s of `pack` and of the
subseconds check are modelled as `none` (a Rust panic). -/
def Timestamp.new_with_input_len (hours hoursLen minutes minutesLen seconds
    secondsLen subsecs subsecsLen : Nat) : Option Timestamp :=
  if subsecsLen = 1 ∧ subsecs ≤ 9 then
    if hours ≤ 4095 ∧ 1 ≤ hoursLen ∧ hoursLen ≤ 4 then
      if minutes ≤ 59 ∧ 1 ≤ minutesLen ∧ minutesLen ≤ 2 then
        if seconds ≤ 59 ∧ 1 ≤ secondsLen ∧ secondsLen ≤ 2 then
          some ⟨hours, hoursLen, minutes, minutesLen, seconds, secondsLen, subsecs⟩
        else none
      else none
    else none
  else none

/-- `Timestamp::new`: canonical widths (hours width 2, or 3 once ≥ 100). -/
def Timestamp.new (hours minutes seconds subsecs : Nat) : Option Timestamp :=
  Timestamp.new_with_input_len hours (if hours < 100 then 2 else 3)
    minutes 2 seconds 2 subsecs 1

/-- `Timestamp::zero` (also the `Default`). -/
def Timestamp.zero : Timestamp := ⟨0, 2, 0, 2, 0, 2, 0⟩

/-- `carrying_add`: `(sum, carry)` relative to `wrap`. -/
def carrying_add (lhs rhs wrap : Nat) : Nat × Nat :=
  ((lhs + rhs) % wrap, (lhs + rhs) / wrap)

/-- `impl Add for Timestamp`; `none` when the carried hours overflow the
4095 bound and `pack` panics. -/
def Timestamp.add (a b : Timestamp) : Option Timestamp :=
  let s1 := carrying_add a.subsecs b.subsecs 10
  let s2 := carrying_add (s1.2 + a.seconds) b.seconds 60
  let s3 := carrying_add (s2.2 + a.minutes) b.minutes 60
  Timestamp.new (s3.2 + a.hours + b.hours) s3.1 s2.1 s1.1

/-- `Timestamp::round_up`; `none` when `hours + 1` overflows and `pack`
panics. -/
def Timestamp.round_up (t : Timestamp) : Option Timestamp :=
  if t.hours > 0 then
    if t.minutes = 0 ∧ t.seconds = 0 ∧ t.subsecs = 0 then some t
    else Timestamp.new (t.hours + 1) 0 0 0
  else if t.minutes > 0 then
    if t.seconds = 0 ∧ t.subsecs = 0 then some t
    else Timestamp.new 0 (t.minutes + 1) 0 0
  else if t.seconds > 0 then Timestamp.new 0 1 0 0
  else Timestamp.new 0 0 0 0

/-- `Timestamp::len`: textual length of the timestamp as parsed. -/
def Timestamp.len (t : Timestamp) : Nat :=
  1 + t.hoursLen + 1 + t.minutesLen + 1 + t.secondsLen + 1 + 1 + 1

/-- `Display for Timestamp`: `#HH:MM:SS-D#` with `{:02}` padding for
hours, minutes and seconds and no padding for subseconds. -/
def ts_format (t : Timestamp) : List Nat :=
  [35] ++ pad2 t.hours ++ [58] ++ pad2 t.minutes ++ [58] ++ pad2 t.seconds
    ++ [45] ++ natToDigits t.subsecs ++ [35]

/-- `parse_digit`. -/
def parse_digit (b : Nat) : Option Nat :=
  if 48 ≤ b ∧ b ≤ 57 then some (b - 48) else none

/-- Loop of `parse_number`: greedily consume further digits. -/
def parse_number_go : List Nat → Nat → Nat → Nat × Nat × List Nat
  | [], n, c => (n, c, [])
  | b :: rest, n, c =>
    match parse_digit b with
    | some d => parse_number_go rest (n * 10 + d) (c + 1)
    | none => (n, c, b :: rest)

/-- `parse_number`: one or more digits, value at most `mx`; returns the
value, the digit count and the unconsumed remainder. -/
def parse_number (bs : List Nat) (mx : Nat) : Option (Nat × Nat × List Nat) :=
  match bs with
  | [] => none
  | b :: rest =>
    match parse_digit b with
    | none => none
    | some d =>
      let r := parse_number_go rest d 1
      if r.1 ≤ mx then some r else none

/-- `expect_byte`. -/
def expect_byte : List Nat → Nat → Option (List Nat)
  | [], _ => none
  | b :: rest, e => if b = e then some rest else none

/-- Result of `Timestamp::parse`: success, the `Malformed` error, or a Rust
panic (reachable through the constructor asserts). -/
inductive ParseOutcome where
  | ok (t : Timestamp)
  | notTimestamp
  | panicked
deriving DecidableEq, Repr

/-- Structural phase of `try_parse_timestamp`: the byte pattern
`#`, digits, `:`, digits, `:`, digits, `-`, digits, `#` parsed as a prefix
of the input, with the numeric bounds checked by `parse_number`. -/
def try_parse_struct (bs : List Nat) :
    Option (Nat × Nat × Nat × Nat × Nat × Nat × Nat × Nat) :=
  match expect_byte bs 35 with
  | none => none
  | some r0 =>
    match parse_number r0 4095 with
    | none => none
    | some (h, hl, r1) =>
      match expect_byte r1 58 with
      | none => none
      | some r2 =>
        match parse_number r2 59 with
        | none => none
        | some (m, ml, r3) =>
          match expect_byte r3 58 with
          | none => none
          | some r4 =>
            match parse_number r4 59 with
            | none => none
            | some (s, sl, r5) =>
              match expect_byte r5 45 with
              | none => none
              | some r6 =>
                match parse_number r6 9 with
                | none => none
                | some (d, dl, r7) =>
                  match expect_byte r7 35 with
                  | none => none
                  | some _ => some (h, hl, m, ml, s, sl, d, dl)

/-- `Timestamp::try_parse_timestamp` / `Timestamp::parse`: a structural
mismatch is the `Malformed` error, a failed constructor assert is a panic. -/
def try_parse_timestamp (bs : List Nat) : ParseOutcome :=
  match try_parse_struct bs with
  | none => ParseOutcome.notTimestamp
  | some (h, hl, m, ml, s, sl, d, dl) =>
    match Timestamp.new_with_input_len h hl m ml s sl d dl with
    | some t => ParseOutcome.ok t
    | none => ParseOutcome.panicked

/-- `F4_MAX_TIMESTAMP_LEN = "#00:00:00-0#".len()`. -/
def F4_MAX_TIMESTAMP_LEN : Nat := 12

/-- `buf.windows(n).enumerate()`: every length-`n` window with its start
offset, in left-to-right order. -/
def windowsAt (buf : List Nat) (n : Nat) : List (Nat × List Nat) :=
  (List.range (buf.length + 1 - n)).map (fun o => (o, (buf.drop o).take n))

/-- Collect successful parses over the enumerated windows; a panicking
window aborts the whole extraction (`none`). -/
def extract_go : List (Nat × List Nat) → Option (List (Nat × Timestamp))
  | [] => some []
  | (o, w) :: rest =>
    match try_parse_timestamp w with
    | ParseOutcome.panicked => none
    | ParseOutcome.ok t => (extract_go rest).map (fun l => (o, t) :: l)
    | ParseOutcome.notTimestamp => extract_go rest

/-- `Timestamp::extract_timestamps`. -/
def extract_timestamps (buf : List Nat) : Option (List (Nat × Timestamp)) :=
  extract_go (windowsAt buf F4_MAX_TIMESTAMP_LEN)

/-- Backwards scan used by `Timestamp::last_timestamp` (`next_back` on the
filtered window iterator): the argument is the reversed window list. -/
def lastTs_go : List (List Nat) → Option (Option Timestamp)
  | [] => some none
  | w :: rest =>
    match try_parse_timestamp w with
    | ParseOutcome.ok t => some (some t)
    | ParseOutcome.notTimestamp => lastTs_go rest
    | ParseOutcome.panicked => none

/-- `Timestamp::last_timestamp`: rightmost successfully parsed window;
outer `none` is a panic during the backwards scan. -/
def rust_last_timestamp (buf : List Nat) : Option (Option Timestamp) :=
  lastTs_go ((windowsAt buf F4_MAX_TIMESTAMP_LEN).map Prod.snd).reverse

/-- Loop of `Timestamp::write_with_adjusted_timestamps` over the extracted
matches: `lo` is `last_offset`; the slice `content[lo..o]` panics (`none`)
when `lo > o`, and the `+` panic of an overflowing shift also aborts. -/
def rewrite_go (content : List Nat) (sh : Timestamp) :
    Nat → Option Timestamp → List (Nat × Timestamp) →
    Option (List Nat × Option Timestamp)
  | lo, lastAdj, [] => some (content.drop lo, lastAdj)
  | lo, _, (o, t) :: rest =>
    if lo ≤ o then
      match Timestamp.add t sh with
      | none => none
      | some a =>
        match rewrite_go content sh (o + t.len) (some a) rest with
        | none => none
        | some (out, la) => some (bslice content lo o ++ ts_format a ++ out, la)
    else none

/-- `Timestamp::write_with_adjusted_timestamps`: the written bytes together
with the last adjusted timestamp (if any); `none` models a panic. -/
def write_with_adjusted_timestamps (content : List Nat) (sh : Timestamp) :
    Option (List Nat × Option Timestamp) :=
  match extract_timestamps content with
  | none => none
  | some l => rewrite_go content sh 0 none l

/-- Token kinds of the markup tokenizer (`rtf.rs`). -/
inductive TokenKind where
  | Text
  | GroupStart
  | GroupEnd
  | ControlSym
  | ControlWord
  | Parameter
  | Delimiter
deriving DecidableEq, Repr

/-- A token: half-open byte extent into the source line plus its kind. -/
structure Token where
  start : Nat
  stop : Nat
  kind : TokenKind
deriving DecidableEq, Repr

/-- Bytes of a token (`Token::as_str`). -/
def tokStr (source : List Nat) (t : Token) : List Nat :=
  bslice source t.start t.stop

/-- `Token::len`. -/
def Token.len (t : Token) : Nat := t.stop - t.start

/-- Number of leading bytes satisfying `p` (used for the digit and
lowercase-letter runs of `parse_parameter` / `parse_control_word`). -/
def countWhile (p : Nat → Bool) : List Nat → Nat
  | [] => 0
  | b :: rest => if p b then 1 + countWhile p rest else 0

/-- ASCII digit test (`u8::is_ascii_digit`). -/
def isDigitByte (b : Nat) : Bool := decide (48 ≤ b) && decide (b ≤ 57)

/-- ASCII lowercase test (`u8::is_ascii_lowercase`). -/
def isLowerByte (b : Nat) : Bool := decide (97 ≤ b) && decide (b ≤ 122)

/-- `Token::consume_plain_text` relative to the remaining bytes: number of
bytes consumed as plain text.  A special byte (`\`, `{`, `}`) stops the
run unless the byte right after it is a single quote, in which case both
are swallowed as an escape sequence and the run continues. -/
def consume_plain_rem : List Nat → Nat
  | [] => 0
  | [b] => if b = 92 ∨ b = 123 ∨ b = 125 then 0 else 1
  | b :: r :: rest2 =>
    if b = 92 ∨ b = 123 ∨ b = 125 then
      if r = 39 then 2 + consume_plain_rem rest2 else 0
    else 1 + consume_plain_rem (r :: rest2)

/-- `Token::consume_plain_text`: absolute end index of a plain-text run
starting at `p`. -/
def consume_plain_text (source : List Nat) (p : Nat) : Nat :=
  p + consume_plain_rem (source.drop p)

/-- `Token::parse_parameter`: the first byte (digit or hyphen) plus the
following digit run. -/
def parse_parameter (source : List Nat) (p : Nat) : Token :=
  ⟨p, p + 1 + countWhile isDigitByte (source.drop (p + 1)), TokenKind.Parameter⟩

/-- `Token::parse_control_word`: backslash plus the lowercase-letter run. -/
def parse_control_word (source : List Nat) (p : Nat) : Token :=
  ⟨p, p + 1 + countWhile isLowerByte (source.drop (p + 1)), TokenKind.ControlWord⟩

/-- `Token::parse_control_word_or_symbol`. -/
def parse_control_word_or_symbol (source : List Nat) (p : Nat) : Token :=
  match source.get? (p + 1) with
  | none => ⟨p, p + 1, TokenKind.Text⟩
  | some c2 =>
    if c2 = 39 then ⟨p, consume_plain_text source (p + 2), TokenKind.Text⟩
    else if isLowerByte c2 then parse_control_word source p
    else ⟨p, p + 2, TokenKind.ControlSym⟩

/-- `Token::parse`: one token starting at `p` (with back bound `bp`), or
`none` at the end of input.  `last` is the kind of the previously emitted
token. -/
def Token.parse (source : List Nat) (p bp : Nat) (last : Option TokenKind) :
    Option Token :=
  match source.get? p with
  | none => none
  | some c =>
    if bp ≤ p then none
    else if last = some TokenKind.ControlWord ∧ (isDigitByte c ∨ c = 45) then
      some (parse_parameter source p)
    else if c = 92 then some (parse_control_word_or_symbol source p)
    else if c = 123 then some ⟨p, p + 1, TokenKind.GroupStart⟩
    else if c = 125 then some ⟨p, p + 1, TokenKind.GroupEnd⟩
    else if last = some TokenKind.ControlSym ∨ last = some TokenKind.ControlWord
        ∨ last = some TokenKind.Parameter then
      some ⟨p, p + 1, TokenKind.Delimiter⟩
    else some ⟨p, consume_plain_text source (p + 1), TokenKind.Text⟩

/-- Iterating `Rtf::next`, with fuel for structural recursion (the fuel is
sufficient whenever it is at least the remaining byte count, since every
token is non-empty). -/
def tokenizeAux (source : List Nat) : Nat → Nat → Option TokenKind → List Token
  | 0, _, _ => []
  | fuel + 1, p, last =>
    match Token.parse source p source.length last with
    | none => []
    | some t => t :: tokenizeAux source fuel t.stop (some t.kind)

/-- The full token stream of one line (`Rtf::from` + iteration). -/
def tokenize (source : List Nat) : List Token :=
  tokenizeAux source (source.length + 1) 0 none

/-- `LINE_PREAMBLE` from `lines.rs` (canonical wrapper opening). -/
def LINE_PREAMBLE_B : List Nat :=
  asciiBytes "\x7b\\f0 \\fs24 \\ul0 \\b0 \\i0 \\cf0 "

/-- `LINE_EPILOGUE` from `lines.rs`. -/
def LINE_EPILOGUE_B : List Nat := asciiBytes "\\par\x7d"

/-- `str::strip_suffix`. -/
def stripSuffixB (l sfx : List Nat) : Option (List Nat) :=
  if sfx.isSuffixOf l then some (l.take (l.length - sfx.length)) else none

/-- `Lines::trim_preamble_and_epilogue`: demand the six-control-word
wrapper (names checked, parameter values not), then strip `\par}` from the
remainder. -/
def trim_preamble_and_epilogue (line : List Nat) : Option (List Nat) :=
  match tokenize line with
  | t1 :: t2 :: t3 :: t4 :: t5 :: t6 :: t7 :: t8 :: t9 :: t10 :: t11 :: t12 ::
      t13 :: t14 :: t15 :: t16 :: t17 :: t18 :: t19 :: _ =>
    if t1.kind = TokenKind.GroupStart ∧
       t2.kind = TokenKind.ControlWord ∧ tokStr line t2 = asciiBytes "\\f" ∧
       t3.kind = TokenKind.Parameter ∧ t4.kind = TokenKind.Delimiter ∧
       t5.kind = TokenKind.ControlWord ∧ tokStr line t5 = asciiBytes "\\fs" ∧
       t6.kind = TokenKind.Parameter ∧ t7.kind = TokenKind.Delimiter ∧
       t8.kind = TokenKind.ControlWord ∧ tokStr line t8 = asciiBytes "\\ul" ∧
       t9.kind = TokenKind.Parameter ∧ t10.kind = TokenKind.Delimiter ∧
       t11.kind = TokenKind.ControlWord ∧ tokStr line t11 = asciiBytes "\\b" ∧
       t12.kind = TokenKind.Parameter ∧ t13.kind = TokenKind.Delimiter ∧
       t14.kind = TokenKind.ControlWord ∧ tokStr line t14 = asciiBytes "\\i" ∧
       t15.kind = TokenKind.Parameter ∧ t16.kind = TokenKind.Delimiter ∧
       t17.kind = TokenKind.ControlWord ∧ tokStr line t17 = asciiBytes "\\cf" ∧
       t18.kind = TokenKind.Parameter ∧ t19.kind = TokenKind.Delimiter then
      stripSuffixB (line.drop t19.stop) LINE_EPILOGUE_B
    else none
  | _ => none

/-- `Utterance` from `lines.rs`: the five non-overlapping spans of the
trimmed line, stored as owned byte lists. -/
structure Utterance where
  speaker_before : List Nat
  speaker : List Nat
  speaker_after : List Nat
  speech : List Nat
  speech_after : List Nat
deriving DecidableEq, Repr

/-- `TryFrom<&str> for Utterance` over one trimmed line. -/
def utterance_try_from (par : List Nat) : Option Utterance :=
  match (tokenize par).filter (fun t => t.kind == TokenKind.Text) with
  | [] => none
  | speaker :: rest =>
    let sStr := tokStr par speaker
    let core : Option (Nat × Nat × Nat × List Token) :=
      if sStr.getLast? = some 58 ∧ 1 < speaker.len then
        match rest with
        | [] => none
        | speech :: rest2 =>
          some (speaker.stop - 1, speech.start, speech.stop, rest2)
      else if (findSubstr [58, 32] sStr).isSome then
        match findSubstr [58, 32] sStr with
        | none => none
        | some k =>
          some (speaker.start + k, speaker.start + k + 2, speaker.stop, rest)
      else
        match rest with
        | [] => none
        | after_colon :: rest2 =>
          let aStr := tokStr par after_colon
          if aStr = [58] ∨ aStr = [58, 32] then
            match rest2 with
            | [] => none
            | speech :: rest3 =>
              some (speaker.stop, speech.start, speech.stop, rest3)
          else if 2 < after_colon.len ∧ [58, 32].isPrefixOf aStr then
            some (speaker.stop, after_colon.start + 2, after_colon.stop, rest2)
          else none
    match core with
    | none => none
    | some (speaker_end, speech_start, speech_end0, remaining) =>
      let speech_end :=
        match remaining.getLast? with
        | some lt => lt.stop
        | none => speech_end0
      some ⟨par.take speaker.start, bslice par speaker.start speaker_end,
            bslice par speaker_end speech_start,
            bslice par speech_start speech_end, par.drop speech_end⟩

/-- Alias used where the constructor `Line.Utterance` would otherwise
shadow the structure name. -/
abbrev UtteranceT := Utterance

/-- A classified line (`Line` in `lines.rs`). -/
inductive Line where
  | Utterance (u : Utterance)
  | Paragraph (content : List Nat)
  | Other (line : List Nat)
deriving DecidableEq, Repr

/-- `Line::utterance`. -/
def Line.utterance : Line → Option UtteranceT
  | Line.Utterance u => some u
  | _ => none

/-- `Lines::parse_line`. -/
def parse_line (line : List Nat) : Line :=
  match trim_preamble_and_epilogue line with
  | none => Line.Other line
  | some content =>
    match utterance_try_from content with
    | some u => Line.Utterance u
    | none => Line.Paragraph content

/-- `Utterance::write_adjusted_with_extra_speech`. -/
def Utterance.write_adjusted_with_extra_speech (u : Utterance)
    (adjust_by : Timestamp) (extra_speech : List Nat)
    (extra_adjust : Timestamp) : Option (List Nat) :=
  match write_with_adjusted_timestamps (trimBytes u.speech) adjust_by with
  | none => none
  | some (o1, _) =>
    match write_with_adjusted_timestamps (trimBytes extra_speech) extra_adjust with
    | none => none
    | some (o2, _) =>
      some (LINE_PREAMBLE_B ++ u.speaker_before ++ u.speaker ++ u.speaker_after
        ++ o1 ++ (if extra_speech.isEmpty then [] else [32]) ++ o2
        ++ u.speech_after ++ LINE_EPILOGUE_B ++ [13, 10])

/-- `Utterance::write_adjusted`. -/
def Utterance.write_adjusted (u : Utterance) (adjust_by : Timestamp) :
    Option (List Nat) :=
  u.write_adjusted_with_extra_speech adjust_by [] Timestamp.zero

/-- `Paragraph::write_adjusted`. -/
def paragraph_write_adjusted (content : List Nat) (adjust_by : Timestamp) :
    Option (List Nat) :=
  match write_with_adjusted_timestamps content adjust_by with
  | none => none
  | some (o, _) => some (LINE_PREAMBLE_B ++ o ++ LINE_EPILOGUE_B ++ [13, 10])

/-- `Line::write_adjusted`. -/
def Line.write_adjusted : Line → Timestamp → Option (List Nat)
  | Line.Utterance u, sh => u.write_adjusted sh
  | Line.Paragraph c, sh => paragraph_write_adjusted c sh
  | Line.Other l, _ => some (l ++ [13, 10])

/-- Split at every newline byte, keeping empty segments. -/
def splitOnNewline : List Nat → List (List Nat)
  | [] => [[]]
  | b :: rest =>
    if b = 10 then [] :: splitOnNewline rest
    else
      match splitOnNewline rest with
      | h :: t => (b :: h) :: t
      | [] => [[b]]

/-- Drop one carriage return from the end of a newline-terminated segment. -/
def stripCRSuffix (l : List Nat) : List Nat :=
  if l.getLast? = some 13 then l.dropLast else l

/-- `str::lines`: newline-terminated segments lose a trailing `\r`; a final
unterminated segment is kept verbatim; a final empty segment is dropped. -/
def rustLines (s : List Nat) : List (List Nat) :=
  let parts := splitOnNewline s
  parts.dropLast.map stripCRSuffix ++
    (match parts.getLast? with
     | some [] => []
     | some l => [l]
     | none => [])

/-- `Transcript` from `transcript.rs`. -/
structure Transcript where
  preamble : List Nat
  content : List Nat
  interview_end_time : Timestamp
deriving DecidableEq, Repr

/-- `PREAMBLE_END_PATTERN`. -/
def PREAMBLE_END_PATTERN_B : List Nat := asciiBytes "\\jexpand\r\n"

/-- `EPILOGUE` (`"\r\n}"`). -/
def EPILOGUE_B : List Nat := asciiBytes "\r\n\x7d"

/-- `TryFrom<String> for Transcript`: locate the content markers, compute
the rounded-up end time from the last timestamp of the raw file.  All load
errors and panics are `none`. -/
def transcript_try_from (buf : List Nat) : Option Transcript :=
  match findSubstr PREAMBLE_END_PATTERN_B buf with
  | none => none
  | some idx =>
    let content_start := idx + PREAMBLE_END_PATTERN_B.length
    if EPILOGUE_B.isSuffixOf buf then
      let content_end := buf.length - EPILOGUE_B.length
      if content_start ≤ content_end then
        match rust_last_timestamp buf with
        | none => none
        | some none => none
        | some (some u) =>
          match u.round_up with
          | none => none
          | some e =>
            some ⟨buf.take content_start, bslice buf content_start content_end, e⟩
      else none
    else none

/-- `Transcript::lines` as the fully evaluated classified line list. -/
def transcriptLines (t : Transcript) : List Line :=
  (rustLines t.content).map parse_line

/-- Writing a list of lines in order under one shift. -/
def writeLines : List Line → Timestamp → Option (List Nat)
  | [], _ => some []
  | l :: rest, sh =>
    match l.write_adjusted sh with
    | none => none
    | some o =>
      match writeLines rest sh with
      | none => none
      | some os => some (o ++ os)

/-- Fallthrough arm of `write_last_and_first_line`: previous last line (if
any) then the first line, each under its own shift. -/
def write_last_then_first (llas : Option (Line × Timestamp))
    (first_line : Line) (sh : Timestamp) : Option (List Nat) :=
  match llas with
  | some (lastLine, last_shift) =>
    match lastLine.write_adjusted last_shift with
    | none => none
    | some o1 =>
      match first_line.write_adjusted sh with
      | none => none
      | some o2 => some (o1 ++ o2)
  | none => first_line.write_adjusted sh

/-- `write_last_and_first_line` from `merge.rs`. -/
def write_last_and_first_line (llas : Option (Line × Timestamp))
    (first_line : Line) (sh : Timestamp) : Option (List Nat) :=
  match llas, first_line.utterance with
  | some (lastLine, last_shift), some first =>
    match lastLine.utterance with
    | some last =>
      if trimBytes last.speaker = trimBytes first.speaker then
        Utterance.write_adjusted_with_extra_speech last last_shift
          (trimBytes first.speech) sh
      else write_last_then_first llas first_line sh
    | none => write_last_then_first llas first_line sh
  | _, _ => write_last_then_first llas first_line sh

/-- `write_next_except_last_line` from `merge.rs`. -/
def write_next_except_last_line (previous : Option (Transcript × Timestamp))
    (current : Transcript × Timestamp) : Option (List Nat) :=
  let prevLast : Option (Line × Timestamp) :=
    previous.bind
      (fun p => ((transcriptLines p.1).getLast?).map (fun l => (l, p.2)))
  match transcriptLines current.1 with
  | [] =>
    match prevLast with
    | some (l, psh) => l.write_adjusted psh
    | none => some []
  | first :: rest =>
    match write_last_and_first_line prevLast first current.2 with
    | none => none
    | some o1 =>
      match writeLines rest.dropLast current.2 with
      | none => none
      | some o2 => some (o1 ++ o2)

/-- The document loop of `write_merged_transcript`, carrying the previous
transcript and the running shift; returns the written bytes and the final
loop state. -/
def mergeLoop : Option Transcript → Timestamp → List Transcript →
    Option (List Nat × Option Transcript × Timestamp)
  | last, sh, [] => some ([], last, sh)
  | last, sh, t :: rest =>
    let endT := (last.map Transcript.interview_end_time).getD Timestamp.zero
    match Timestamp.add sh endT with
    | none => none
    | some next_shift =>
      match write_next_except_last_line (last.map (fun lt => (lt, sh)))
          (t, next_shift) with
      | none => none
      | some out =>
        match mergeLoop (some t) next_shift rest with
        | none => none
        | some (outRest, l2, s2) => some (out ++ outRest, l2, s2)

/-- `write_merged_transcript` from `merge.rs`. -/
def write_merged_transcript (ts : List Transcript) : Option (List Nat) :=
  match ts with
  | [] => some []
  | first :: _ =>
    match mergeLoop none Timestamp.zero ts with
    | none => none
    | some (out, lastT, sh) =>
      let lastOut : Option (List Nat) :=
        match lastT with
        | some lt =>
          match (transcriptLines lt).getLast? with
          | some ll => ll.write_adjusted sh
          | none => some []
        | none => some []
      match lastOut with
      | none => none
      | some lo => some (first.preamble ++ out ++ lo ++ EPILOGUE_B)

/-- The shift component of `mergeLoop` in isolation: the running shift after
consuming the given documents, `none` when an addition panics. -/
def loopShift : Option Transcript → Timestamp → List Transcript →
    Option Timestamp
  | _, sh, [] => some sh
  | last, sh, t :: rest =>
    match Timestamp.add sh
        ((last.map Transcript.interview_end_time).getD Timestamp.zero) with
    | none => none
    | some ns => loopShift (some t) ns rest

theorem consume_plain_rem_le : ∀ l : List Nat, consume_plain_rem l ≤ l.length
  | [] => Nat.le_refl 0
  | [b] => by
    simp only [consume_plain_rem, List.length_cons, List.length_nil]
    split <;> omega
  | b :: r :: rest2 => by
    have ih2 := consume_plain_rem_le rest2
    have ih1 := consume_plain_rem_le (r :: rest2)
    simp only [consume_plain_rem, List.length_cons]
    split
    · split <;> omega
    · simp only [List.length_cons] at ih1
      omega

lemma countWhile_le (p : Nat → Bool) (l : List Nat) :
    countWhile p l ≤ l.length := by
  induction l with
  | nil => simp [countWhile]
  | cons b rest ih =>
    simp only [countWhile, List.length_cons]
    split <;> omega

lemma consume_plain_text_spec (source : List Nat) (p : Nat)
    (hp : p ≤ source.length) :
    p ≤ consume_plain_text source p ∧
      consume_plain_text source p ≤ source.length := by
  have hrem := consume_plain_rem_le (source.drop p)
  have hlen : (source.drop p).length = source.length - p :=
    List.length_drop _ _
  unfold consume_plain_text
  omega

lemma token_parse_none (source : List Nat) (p : Nat) (last : Option TokenKind)
    (h : source.length ≤ p) :
    Token.parse source p source.length last = none := by
  unfold Token.parse
  rw [List.get?_eq_none.mpr h]

lemma pcwos_spec (source : List Nat) (p : Nat) (hlt : p < source.length) :
    (parse_control_word_or_symbol source p).start = p ∧
      p < (parse_control_word_or_symbol source p).stop ∧
      (parse_control_word_or_symbol source p).stop ≤ source.length := by
  unfold parse_control_word_or_symbol
  split
  · exact ⟨rfl, by show p < p + 1; omega,
      by show p + 1 ≤ source.length; omega⟩
  · next c2 hc2 =>
    have hlt2 : p + 1 < source.length := by
      by_contra hcon
      rw [List.get?_eq_none.mpr (by omega)] at hc2
      exact Option.noConfusion hc2
    have hcpt := consume_plain_text_spec source (p + 2) (by omega)
    have hcwl := countWhile_le isLowerByte (source.drop (p + 1))
    have hlen1 : (source.drop (p + 1)).length = source.length - (p + 1) :=
      List.length_drop _ _
    by_cases h39 : c2 = 39
    · rw [if_pos h39]
      exact ⟨rfl, by show p < consume_plain_text source (p + 2); omega,
        by show consume_plain_text source (p + 2) ≤ source.length; omega⟩
    · rw [if_neg h39]
      by_cases hl : isLowerByte c2 = true
      · rw [if_pos hl]
        unfold parse_control_word
        exact ⟨rfl,
          by show p < p + 1 + countWhile isLowerByte (source.drop (p + 1))
             omega,
          by show p + 1 + countWhile isLowerByte (source.drop (p + 1))
               ≤ source.length
             omega⟩
      · rw [if_neg hl]
        exact ⟨rfl, by show p < p + 2; omega,
          by show p + 2 ≤ source.length; omega⟩

lemma token_parse_some (source : List Nat) (p : Nat) (last : Option TokenKind)
    (hlt : p < source.length) :
    ∃ t, Token.parse source p source.length last = some t ∧ t.start = p ∧
      p < t.stop ∧ t.stop ≤ source.length := by
  have hcwd := countWhile_le isDigitByte (source.drop (p + 1))
  have hlen1 : (source.drop (p + 1)).length = source.length - (p + 1) :=
    List.length_drop _ _
  have hcpt := consume_plain_text_spec source (p + 1) (by omega)
  obtain ⟨c, hc⟩ : ∃ c, source.get? p = some c :=
    ⟨_, List.get?_eq_get hlt⟩
  have hnle : ¬source.length ≤ p := by omega
  unfold Token.parse
  simp only [hc]
  rw [if_neg hnle]
  by_cases h1 : last = some TokenKind.ControlWord ∧ (isDigitByte c = true ∨ c = 45)
  · rw [if_pos h1]
    refine ⟨_, rfl, rfl, ?_, ?_⟩
    · show p < p + 1 + countWhile isDigitByte (source.drop (p + 1))
      omega
    · show p + 1 + countWhile isDigitByte (source.drop (p + 1)) ≤ source.length
      omega
  · rw [if_neg h1]
    by_cases h2 : c = 92
    · rw [if_pos h2]
      obtain ⟨hs, hp1, hp2⟩ := pcwos_spec source p hlt
      exact ⟨_, rfl, hs, hp1, hp2⟩
    · rw [if_neg h2]
      by_cases h3 : c = 123
      · rw [if_pos h3]
        exact ⟨_, rfl, rfl, by show p < p + 1; omega,
          by show p + 1 ≤ source.length; omega⟩
      · rw [if_neg h3]
        by_cases h4 : c = 125
        · rw [if_pos h4]
          exact ⟨_, rfl, rfl, by show p < p + 1; omega,
            by show p + 1 ≤ source.length; omega⟩
        · rw [if_neg h4]
          by_cases h5 : last = some TokenKind.ControlSym ∨
              last = some TokenKind.ControlWord ∨ last = some TokenKind.Parameter
          · rw [if_pos h5]
            exact ⟨_, rfl, rfl, by show p < p + 1; omega,
              by show p + 1 ≤ source.length; omega⟩
          · rw [if_neg h5]
            exact ⟨_, rfl, rfl,
              by show p < consume_plain_text source (p + 1); omega,
              by show consume_plain_text source (p + 1) ≤ source.length
                 omega⟩

/-- The partition predicate on a token stream: tokens are non-empty,
contiguous, start at `p` and end exactly at `len`. -/
def chainB (len : Nat) : Nat → List Token → Bool
  | p, [] => p == len
  | p, t :: ts => (t.start == p) && decide (p < t.stop) && chainB len t.stop ts

lemma tokenizeAux_chain (source : List Nat) :
    ∀ fuel p last, p ≤ source.length → source.length - p ≤ fuel →
      chainB source.length p (tokenizeAux source fuel p last) = true := by
  intro fuel
  induction fuel with
  | zero =>
    intro p last hp hf
    have hpe : p = source.length := by omega
    simp [tokenizeAux, chainB, hpe]
  | succ fuel ih =>
    intro p last hp hf
    by_cases hend : source.length ≤ p
    · have hpe : p = source.length := by omega
      subst hpe
      simp [tokenizeAux,
        token_parse_none source source.length last (Nat.le_refl _), chainB]
    · obtain ⟨t, hpar, hstart, hprog, hstop⟩ :=
        token_parse_some source p last (by omega)
      simp only [tokenizeAux, hpar]
      simp only [chainB, hstart, beq_self_eq_true, Bool.true_and,
        Bool.and_eq_true, decide_eq_true_eq]
      exact ⟨hprog, ih t.stop (some t.kind) hstop (by omega)⟩

/-- C9: tokenization is total and terminating on every input line, and the
resulting token stream is a partition of the line: every token is
non-empty, the first starts at offset 0, each token starts exactly where
the previous one ended, and the last ends at the end of the line — so
every byte belongs to exactly one token. -/
theorem C9_tokenizer_total_partition (source : List Nat) :
    chainB source.length 0 (tokenize source) = true :=
  tokenizeAux_chain source (source.length + 1) 0 none (by omega) (by omega)

lemma extract_go_eq (ws : List (Nat × List Nat)) (l : List (Nat × Timestamp))
    (h : extract_go ws = some l) :
    l = ws.filterMap (fun ow =>
      match try_parse_timestamp ow.2 with
      | ParseOutcome.ok t => some (ow.1, t)
      | _ => none) := by
  induction ws generalizing l with
  | nil =>
    simp only [extract_go, Option.some.injEq] at h
    simp [← h]
  | cons ow rest ih =>
    obtain ⟨o, w⟩ := ow
    simp only [extract_go] at h
    cases hp : try_parse_timestamp w with
    | panicked => rw [hp] at h; exact Option.noConfusion h
    | notTimestamp =>
      rw [hp] at h
      rw [List.filterMap_cons]
      simp only [hp]
      exact ih l h
    | ok t =>
      rw [hp] at h
      obtain ⟨l2, hl2, hcons⟩ := Option.map_eq_some'.mp h
      rw [List.filterMap_cons]
      simp only [hp]
      rw [← hcons, ih l2 hl2]

lemma windowsAt_mem (buf : List Nat) (n o : Nat) (h : o + n ≤ buf.length) :
    (o, (buf.drop o).take n) ∈ windowsAt buf n := by
  unfold windowsAt
  exact List.mem_map_of_mem _ (List.mem_range.mpr (by omega))

lemma windowsAt_mem_inv (buf : List Nat) (n : Nat) (o : Nat) (w : List Nat)
    (h : (o, w) ∈ windowsAt buf n) :
    w = (buf.drop o).take n ∧ o + n ≤ buf.length := by
  unfold windowsAt at h
  obtain ⟨o2, ho2, heq⟩ := List.mem_map.mp h
  have h1 : o2 = o := congrArg Prod.fst heq
  have h2 : (buf.drop o2).take n = w := congrArg Prod.snd heq
  subst h1
  exact ⟨h2.symm, by have := List.mem_range.mp ho2; omega⟩

lemma windowsAt_fst (buf : List Nat) (n : Nat) :
    (windowsAt buf n).map Prod.fst = List.range (buf.length + 1 - n) := by
  unfold windowsAt
  rw [List.map_map]
  exact List.map_id _

lemma filterMap_fst_sublist {α β : Type} (ws : List (Nat × α))
    (f : Nat × α → Option (Nat × β))
    (hf : ∀ ow p, f ow = some p → p.1 = ow.1) :
    List.Sublist ((ws.filterMap f).map Prod.fst) (ws.map Prod.fst) := by
  induction ws with
  | nil => simp
  | cons ow rest ih =>
    rw [List.filterMap_cons, List.map_cons]
    cases hfo : f ow with
    | none => exact ih.cons ow.1
    | some p =>
      rw [List.map_cons, hf ow p hfo]
      exact ih.cons₂ ow.1

lemma extract_sorted (buf : List Nat) (l : List (Nat × Timestamp))
    (he : extract_timestamps buf = some l) :
    List.Pairwise (fun p q : Nat × Timestamp => p.1 < q.1) l := by
  have hl := extract_go_eq _ _ he
  have hsub := filterMap_fst_sublist (windowsAt buf F4_MAX_TIMESTAMP_LEN)
    (fun ow => match try_parse_timestamp ow.2 with
      | ParseOutcome.ok t => some (ow.1, t)
      | _ => none)
    (by
      intro ow p hfo
      simp only [] at hfo
      cases hp : try_parse_timestamp ow.2 with
      | ok t =>
        simp only [hp, Option.some.injEq] at hfo
        rw [← hfo]
      | notTimestamp => simp [hp] at hfo
      | panicked => simp [hp] at hfo)
  rw [← hl] at hsub
  rw [windowsAt_fst] at hsub
  have hpr : List.Pairwise (· < ·) (l.map Prod.fst) :=
    (List.pairwise_lt_range _).sublist hsub
  exact List.pairwise_map.mp hpr

lemma extract_mem (buf : List Nat) (l : List (Nat × Timestamp)) (o : Nat)
    (t : Timestamp) (he : extract_timestamps buf = some l)
    (ho : o + F4_MAX_TIMESTAMP_LEN ≤ buf.length)
    (hp : try_parse_timestamp ((buf.drop o).take F4_MAX_TIMESTAMP_LEN) =
      ParseOutcome.ok t) :
    (o, t) ∈ l := by
  rw [extract_go_eq _ _ he]
  rw [List.mem_filterMap]
  exact ⟨(o, (buf.drop o).take F4_MAX_TIMESTAMP_LEN),
    windowsAt_mem buf _ o ho, by simp only [hp]⟩

lemma extract_entries (buf : List Nat) (l : List (Nat × Timestamp))
    (he : extract_timestamps buf = some l) :
    ∀ o t, (o, t) ∈ l →
      try_parse_timestamp ((buf.drop o).take F4_MAX_TIMESTAMP_LEN) =
        ParseOutcome.ok t ∧ o + F4_MAX_TIMESTAMP_LEN ≤ buf.length := by
  intro o t hm
  rw [extract_go_eq _ _ he] at hm
  obtain ⟨ow, how, hfo⟩ := List.mem_filterMap.mp hm
  obtain ⟨o2, w⟩ := ow
  simp only [] at hfo
  cases hp : try_parse_timestamp w with
  | ok t2 =>
    simp only [hp, Option.some.injEq, Prod.mk.injEq] at hfo
    obtain ⟨rfl, rfl⟩ := hfo
    obtain ⟨hw, hol⟩ := windowsAt_mem_inv buf _ o2 w how
    rw [hw] at hp
    exact ⟨hp, hol⟩
  | notTimestamp => simp [hp] at hfo
  | panicked => simp [hp] at hfo

example :
    parse_line
        (asciiBytes "\x7b\\f0 \\fs24 \\ul0 \\b0 \\i0 \\cf0 Z: Hello\\par\x7d") =
    Line.Utterance
      ⟨[], asciiBytes "Z", asciiBytes ": ", asciiBytes "Hello", []⟩ := by
  decide

example :
    parse_line
        (asciiBytes "\x7b\\f1 \\fs24 \\ul0 \\b0 \\i0 \\cf0 hi\\par\x7d") =
    Line.Paragraph (asciiBytes "hi") := by decide

example :
    (tokenize (asciiBytes "\x7b\\f0 \\fs24 \\ul0 \\b0 \\i0 \\cf0 \\par\x7d")).map
        Token.kind =
    [TokenKind.GroupStart,
     TokenKind.ControlWord, TokenKind.Parameter, TokenKind.Delimiter,
     TokenKind.ControlWord, TokenKind.Parameter, TokenKind.Delimiter,
     TokenKind.ControlWord, TokenKind.Parameter, TokenKind.Delimiter,
     TokenKind.ControlWord, TokenKind.Parameter, TokenKind.Delimiter,
     TokenKind.ControlWord, TokenKind.Parameter, TokenKind.Delimiter,
     TokenKind.ControlWord, TokenKind.Parameter, TokenKind.Delimiter,
     TokenKind.ControlWord, TokenKind.GroupEnd] := by decide

example : try_parse_timestamp (asciiBytes "#00:06:00-0#") =
    ParseOutcome.ok ⟨0, 2, 6, 2, 0, 2, 0⟩ := by decide

lemma natToDigitsAux_irrel :
    ∀ f n, n ≤ f → natToDigitsAux f n = natToDigitsAux n n := by
  intro f
  induction f using Nat.strong_induction_on with
  | _ f ih =>
    intro n hn
    by_cases h10 : n < 10
    · match f, n with
      | 0, 0 => rfl
      | f + 1, 0 => simp [natToDigitsAux]
      | 0, n + 1 => omega
      | f + 1, n + 1 => simp [natToDigitsAux, h10]
    · match f, n with
      | 0, _ => omega
      | f + 1, 0 => omega
      | f + 1, m + 1 =>
        have hdiv : (m + 1) / 10 < m + 1 := Nat.div_lt_self (by omega) (by omega)
        simp only [natToDigitsAux, if_neg h10]
        rw [ih f (by omega) ((m + 1) / 10) (by omega),
          ih m (by omega) ((m + 1) / 10) (by omega)]

/-- Recursion equation for `natToDigits`. -/
lemma natToDigits_eq (n : Nat) :
    natToDigits n =
      if n < 10 then [48 + n] else natToDigits (n / 10) ++ [48 + n % 10] := by
  by_cases h10 : n < 10
  · match n with
    | 0 => simp [natToDigits, natToDigitsAux]
    | n + 1 => simp [natToDigits, natToDigitsAux, h10]
  · match n with
    | 0 => omega
    | m + 1 =>
      have hdiv : (m + 1) / 10 < m + 1 := Nat.div_lt_self (by omega) (by omega)
      simp only [natToDigits, natToDigitsAux, if_neg h10]
      rw [natToDigitsAux_irrel m ((m + 1) / 10) (by omega)]

lemma natToDigits_ne_nil (n : Nat) : natToDigits n ≠ [] := by
  rw [natToDigits_eq]
  split <;> simp

lemma natToDigits_all_digits (n : Nat) :
    ∀ d ∈ natToDigits n, 48 ≤ d ∧ d ≤ 57 := by
  induction n using Nat.strong_induction_on with
  | _ n ih =>
    rw [natToDigits_eq]
    by_cases h10 : n < 10
    · rw [if_pos h10]
      intro d hd
      rw [List.mem_singleton] at hd
      omega
    · have hdiv : n / 10 < n := Nat.div_lt_self (by omega) (by omega)
      have hm : n % 10 < 10 := Nat.mod_lt _ (by omega)
      rw [if_neg h10]
      intro d hd
      rcases List.mem_append.mp hd with hd2 | hd2
      · exact ih _ hdiv d hd2
      · rw [List.mem_singleton] at hd2
        omega

lemma digitsVal_cons (d : Nat) (ds : List Nat) :
    digitsVal (d :: ds) = ds.foldl (fun a b => a * 10 + (b - 48)) (d - 48) := by
  simp [digitsVal]

lemma digitsVal_append_single (ds : List Nat) (y : Nat) :
    digitsVal (ds ++ [y]) = digitsVal ds * 10 + (y - 48) := by
  simp [digitsVal, List.foldl_append]

lemma digitsVal_natToDigits (n : Nat) : digitsVal (natToDigits n) = n := by
  induction n using Nat.strong_induction_on with
  | _ n ih =>
    rw [natToDigits_eq]
    by_cases h10 : n < 10
    · simp [h10, digitsVal]
    · have hdiv : n / 10 < n := Nat.div_lt_self (by omega) (by omega)
      rw [if_neg h10, digitsVal_append_single, ih _ hdiv]
      omega

lemma natToDigits_length_le (n k : Nat) (hk : 1 ≤ k) (h : n < 10 ^ k) :
    (natToDigits n).length ≤ k := by
  induction k generalizing n with
  | zero => omega
  | succ k ihk =>
    rw [natToDigits_eq]
    by_cases h10 : n < 10
    · rw [if_pos h10]
      simp
    · have hdiv : n / 10 < 10 ^ k := by
        rw [Nat.div_lt_iff_lt_mul (by omega)]
        calc n < 10 ^ (k + 1) := h
        _ = 10 ^ k * 10 := by ring
      have hk1 : 1 ≤ k := by
        by_contra hc
        have hk0 : k = 0 := by omega
        subst hk0
        simp only [pow_zero, Nat.lt_one_iff] at hdiv
        omega
      rw [if_neg h10]
      simp only [List.length_append, List.length_singleton]
      have := ihk (n / 10) hk1 hdiv
      omega

lemma natToDigits_length_two (n : Nat) (h1 : 10 ≤ n) (h2 : n ≤ 99) :
    (natToDigits n).length = 2 := by
  have hd2 : n / 10 < 10 := by omega
  rw [natToDigits_eq, if_neg (by omega), natToDigits_eq, if_pos hd2]
  rfl

lemma natToDigits_single (n : Nat) (h : n < 10) : natToDigits n = [48 + n] := by
  rw [natToDigits_eq, if_pos h]

lemma pad2_val (n : Nat) : digitsVal (pad2 n) = n := by
  unfold pad2
  split
  · rw [natToDigits_single n (by omega)]
    simp [digitsVal]
  · exact digitsVal_natToDigits n

lemma pad2_all_digits (n : Nat) : ∀ d ∈ pad2 n, 48 ≤ d ∧ d ≤ 57 := by
  unfold pad2
  split
  · intro d hd
    rcases List.mem_cons.mp hd with rfl | hd
    · omega
    · exact natToDigits_all_digits n d hd
  · exact natToDigits_all_digits n

lemma pad2_ne_nil (n : Nat) : pad2 n ≠ [] := by
  unfold pad2
  split
  · simp
  · exact natToDigits_ne_nil n

lemma pad2_length_two (n : Nat) (h : n ≤ 99) : (pad2 n).length = 2 := by
  unfold pad2
  split
  · next h10 =>
      rw [natToDigits_single n h10]
      rfl
  · next h10 => exact natToDigits_length_two n (by omega) h

lemma pad2_length_big (n : Nat) (h : 100 ≤ n) :
    (pad2 n).length = (natToDigits n).length := by
  unfold pad2
  rw [if_neg (by omega)]

lemma parse_number_go_append (ds rest : List Nat) (n c : Nat)
    (hds : ∀ d ∈ ds, 48 ≤ d ∧ d ≤ 57)
    (hrest : ∀ b, rest.head? = some b → ¬(48 ≤ b ∧ b ≤ 57)) :
    parse_number_go (ds ++ rest) n c =
      (ds.foldl (fun a b => a * 10 + (b - 48)) n, c + ds.length, rest) := by
  induction ds generalizing n c with
  | nil =>
    simp only [List.nil_append, List.foldl_nil, List.length_nil, Nat.add_zero]
    match rest with
    | [] => rfl
    | b :: rest2 =>
      have hb := hrest b rfl
      simp [parse_number_go, parse_digit, hb]
  | cons d ds ihd =>
    have hd := hds d (List.mem_cons_self d ds)
    simp only [List.cons_append, parse_number_go, parse_digit, if_pos hd]
    rw [List.append_eq, ihd _ _ (fun x hx => hds x (List.mem_cons_of_mem d hx))]
    simp only [List.foldl_cons, List.length_cons, Prod.mk.injEq, true_and,
      and_true]
    omega

lemma parse_number_append (ds rest : List Nat) (mx : Nat) (hne : ds ≠ [])
    (hds : ∀ d ∈ ds, 48 ≤ d ∧ d ≤ 57)
    (hrest : ∀ b, rest.head? = some b → ¬(48 ≤ b ∧ b ≤ 57)) :
    parse_number (ds ++ rest) mx =
      if digitsVal ds ≤ mx then some (digitsVal ds, ds.length, rest)
      else none := by
  match ds with
  | [] => exact absurd rfl hne
  | d :: ds2 =>
    have hd := hds d (List.mem_cons_self d ds2)
    simp only [List.cons_append, parse_number, parse_digit, if_pos hd]
    rw [parse_number_go_append ds2 rest (d - 48) 1
      (fun x hx => hds x (List.mem_cons_of_mem d hx)) hrest]
    rw [digitsVal_cons]
    simp only [List.length_cons]
    split <;> simp [Nat.add_comm]

/-- Structural parse of the full timestamp pattern followed by arbitrary
bytes: the leading pattern is consumed, the remainder is ignored. -/
lemma try_parse_struct_pattern (hd md sd : List Nat) (d : Nat)
    (rest : List Nat)
    (hhd : ∀ b ∈ hd, 48 ≤ b ∧ b ≤ 57) (hhne : hd ≠ [])
    (hmd : ∀ b ∈ md, 48 ≤ b ∧ b ≤ 57) (hmne : md ≠ [])
    (hsd : ∀ b ∈ sd, 48 ≤ b ∧ b ≤ 57) (hsne : sd ≠ [])
    (hdd : 48 ≤ d ∧ d ≤ 57)
    (hhv : digitsVal hd ≤ 4095) (hmv : digitsVal md ≤ 59)
    (hsv : digitsVal sd ≤ 59) :
    try_parse_struct
        (35 :: (hd ++ 58 :: (md ++ 58 :: (sd ++ 45 :: d :: 35 :: rest)))) =
      some (digitsVal hd, hd.length, digitsVal md, md.length,
        digitsVal sd, sd.length, d - 48, 1) := by
  have hdv : d - 48 ≤ 9 := by omega
  have hsingle : digitsVal [d] = d - 48 := by simp [digitsVal]
  have h1 : ∀ b : Nat,
      (58 :: (md ++ 58 :: (sd ++ 45 :: d :: 35 :: rest))).head? = some b →
      ¬(48 ≤ b ∧ b ≤ 57) := by
    intro b hb
    simp only [List.head?_cons, Option.some.injEq] at hb
    omega
  have h2 : ∀ b : Nat,
      (58 :: (sd ++ 45 :: d :: 35 :: rest)).head? = some b →
      ¬(48 ≤ b ∧ b ≤ 57) := by
    intro b hb
    simp only [List.head?_cons, Option.some.injEq] at hb
    omega
  have h3 : ∀ b : Nat,
      (45 :: d :: 35 :: rest).head? = some b → ¬(48 ≤ b ∧ b ≤ 57) := by
    intro b hb
    simp only [List.head?_cons, Option.some.injEq] at hb
    omega
  have h4 : ∀ b : Nat, (35 :: rest).head? = some b → ¬(48 ≤ b ∧ b ≤ 57) := by
    intro b hb
    simp only [List.head?_cons, Option.some.injEq] at hb
    omega
  have hsub :
      parse_number ([d] ++ 35 :: rest) 9 = some (d - 48, 1, 35 :: rest) := by
    rw [parse_number_append [d] (35 :: rest) 9 (by simp)
        (by intro x hx; rw [List.mem_singleton] at hx; omega) h4]
    rw [hsingle, if_pos hdv]
    rfl
  simp only [List.singleton_append] at hsub
  simp [try_parse_struct, expect_byte,
    parse_number_append hd _ 4095 hhne hhd h1,
    parse_number_append md _ 59 hmne hmd h2,
    parse_number_append sd _ 59 hsne hsd h3,
    hsub, hhv, hmv, hsv]

example : try_parse_timestamp (asciiBytes "#00:0600-0#") =
    ParseOutcome.notTimestamp := by decide

lemma new_with_input_len_pos (h hl m ml s sl ss : Nat)
    (hh : h ≤ 4095) (hhl1 : 1 ≤ hl) (hhl4 : hl ≤ 4)
    (hm : m ≤ 59) (hml1 : 1 ≤ ml) (hml2 : ml ≤ 2)
    (hs : s ≤ 59) (hsl1 : 1 ≤ sl) (hsl2 : sl ≤ 2) (hss : ss ≤ 9) :
    Timestamp.new_with_input_len h hl m ml s sl ss 1 =
      some ⟨h, hl, m, ml, s, sl, ss⟩ := by
  unfold Timestamp.new_with_input_len
  rw [if_pos ⟨rfl, hss⟩, if_pos ⟨hh, hhl1, hhl4⟩, if_pos ⟨hm, hml1, hml2⟩,
    if_pos ⟨hs, hsl1, hsl2⟩]

/-- C5: for every valid timestamp carrying the canonical digit widths
(minutes and seconds width 2, one subsecond digit, hours width 2 below
100 and the actual digit count from 100 on), parsing its canonical
formatting returns exactly the same timestamp, stored widths included. -/
theorem C5_parse_format_roundtrip (t : Timestamp) (hv : t.Valid)
    (hml : t.minutesLen = 2) (hsl : t.secondsLen = 2)
    (hhl : t.hoursLen =
      if t.hours < 100 then 2 else (natToDigits t.hours).length) :
    try_parse_timestamp (ts_format t) = ParseOutcome.ok t := by
  obtain ⟨h, hl, m, ml, s, sl, ss⟩ := t
  simp only at hml hsl hhl
  obtain ⟨hh, hhl1, hhl4, hm59, hml1, hml2, hs59, hsl1, hsl2, hss9⟩ := hv
  simp only at hh hhl1 hhl4 hm59 hml1 hml2 hs59 hsl1 hsl2 hss9
  have hfmt : ts_format ⟨h, hl, m, ml, s, sl, ss⟩ =
      35 :: (pad2 h ++ 58 :: (pad2 m ++ 58 ::
        (pad2 s ++ 45 :: (48 + ss) :: 35 :: ([] : List Nat)))) := by
    simp [ts_format, natToDigits_single ss (by omega)]
  have hpat := try_parse_struct_pattern (pad2 h) (pad2 m) (pad2 s) (48 + ss)
    [] (pad2_all_digits h) (pad2_ne_nil h) (pad2_all_digits m) (pad2_ne_nil m)
    (pad2_all_digits s) (pad2_ne_nil s) (by omega)
    (by rw [pad2_val]; exact hh) (by rw [pad2_val]; exact hm59)
    (by rw [pad2_val]; exact hs59)
  have hlh : (pad2 h).length = hl := by
    by_cases h100 : h < 100
    · rw [pad2_length_two h (by omega), hhl, if_pos h100]
    · rw [pad2_length_big h (by omega), hhl, if_neg h100]
  have hlm : (pad2 m).length = ml := by
    rw [pad2_length_two m (by omega), hml]
  have hls : (pad2 s).length = sl := by
    rw [pad2_length_two s (by omega), hsl]
  have hssv : 48 + ss - 48 = ss := by omega
  unfold try_parse_timestamp
  rw [hfmt, hpat, pad2_val, pad2_val, pad2_val, hlh, hlm, hls, hssv]
  simp only [new_with_input_len_pos h hl m ml s sl ss hh hhl1 hhl4 hm59 hml1
    hml2 hs59 hsl1 hsl2 hss9]

/-- C5 witness: the round-trip theorem applied at the concrete canonical
timestamp 05:04:03-2. -/
theorem C5_roundtrip_witness :
    (⟨5, 2, 4, 2, 3, 2, 2⟩ : Timestamp).Valid ∧
    try_parse_timestamp (ts_format ⟨5, 2, 4, 2, 3, 2, 2⟩) =
      ParseOutcome.ok ⟨5, 2, 4, 2, 3, 2, 2⟩ :=
  ⟨by decide,
    C5_parse_format_roundtrip ⟨5, 2, 4, 2, 3, 2, 2⟩ (by decide) rfl rfl
      (by decide)⟩

/-- C6 counterexample: `add` is not total.  Both operands are valid
timestamps (maximal hours), yet addition panics in `pack` because the
resulting hours exceed 4095 — refuting "add(a, b) is defined [for all a
and b] … with no upper bound or carry limit on the resulting hours". -/
theorem C6_cex_add_overflow_panics :
    (⟨4095, 4, 0, 2, 0, 2, 0⟩ : Timestamp).Valid ∧
    Timestamp.add ⟨4095, 4, 0, 2, 0, 2, 0⟩ ⟨4095, 4, 0, 2, 0, 2, 0⟩ =
      none := by
  decide

/-- C6 amended: `add` is component-wise addition with carry base 10 from
subseconds to seconds and base 60 upward, and it is defined exactly when
the carried hours total stays within the packed bound 4095 (otherwise the
constructor assert panics); the worked example
58:58:57-9 + 2:03:04-9 = 61:02:02-8 holds. -/
theorem C6_add_componentwise_carry (a b : Timestamp) :
    (Timestamp.add a b =
      if (((a.subsecs + b.subsecs) / 10 + a.seconds + b.seconds) / 60
            + a.minutes + b.minutes) / 60 + a.hours + b.hours ≤ 4095 then
        some ⟨(((a.subsecs + b.subsecs) / 10 + a.seconds + b.seconds) / 60
            + a.minutes + b.minutes) / 60 + a.hours + b.hours,
          if (((a.subsecs + b.subsecs) / 10 + a.seconds + b.seconds) / 60
            + a.minutes + b.minutes) / 60 + a.hours + b.hours < 100
          then 2 else 3,
          (((a.subsecs + b.subsecs) / 10 + a.seconds + b.seconds) / 60
            + a.minutes + b.minutes) % 60, 2,
          ((a.subsecs + b.subsecs) / 10 + a.seconds + b.seconds) % 60, 2,
          (a.subsecs + b.subsecs) % 10⟩
      else none) ∧
    Timestamp.add ⟨58, 2, 58, 2, 57, 2, 9⟩ ⟨2, 1, 3, 2, 4, 2, 9⟩ =
      some ⟨61, 2, 2, 2, 2, 2, 8⟩ := by
  constructor
  · unfold Timestamp.add carrying_add Timestamp.new
      Timestamp.new_with_input_len
    by_cases hbound : (((a.subsecs + b.subsecs) / 10 + a.seconds + b.seconds)
        / 60 + a.minutes + b.minutes) / 60 + a.hours + b.hours ≤ 4095
    · rw [if_pos ⟨rfl, by omega⟩,
        if_pos ⟨hbound, by split <;> omega, by split <;> omega⟩,
        if_pos ⟨by omega, by omega, by omega⟩,
        if_pos ⟨by omega, by omega, by omega⟩, if_pos hbound]
    · rw [if_pos ⟨rfl, by omega⟩,
        if_neg (fun hcon => hbound hcon.1), if_neg hbound]
  · decide

/-- C8: the claim says `parse` fails only with the "not a timestamp"
error; but on `#0:0:0-00#` (multi-digit subseconds of in-range value) the
code instead panics in the subseconds assert of `new_with_input_len`, so
the code contradicts the documented error behaviour. -/
theorem C8_multidigit_subsec_panics :
    try_parse_timestamp (asciiBytes "#0:0:0-00#") = ParseOutcome.panicked := by
  decide

example : try_parse_timestamp (asciiBytes "#0:0:0-00#") =
    ParseOutcome.panicked := by decide

example :
    Timestamp.add ⟨58, 2, 58, 2, 57, 2, 9⟩ ⟨2, 1, 3, 2, 4, 2, 9⟩ =
    some ⟨61, 2, 2, 2, 2, 2, 8⟩ := by decide

example : ts_format ⟨58, 2, 58, 2, 57, 2, 9⟩ = asciiBytes "#58:58:57-9#" := by
  decide

/-- The spec-side timestamp notation of the claim:
`#H{1,4}:M{1,2}:S{1,2}-D#` with hours ≤ 4095, minutes ≤ 59,
seconds ≤ 59, one subsecond digit, paired with the timestamp it denotes
(digit widths recorded). -/
def SpecMatch (s : List Nat) (t : Timestamp) : Prop :=
  ∃ hd md sd d,
    s = 35 :: (hd ++ 58 :: (md ++ 58 :: (sd ++ [45, d, 35]))) ∧
    (∀ b ∈ hd, 48 ≤ b ∧ b ≤ 57) ∧ 1 ≤ hd.length ∧ hd.length ≤ 4 ∧
    (∀ b ∈ md, 48 ≤ b ∧ b ≤ 57) ∧ 1 ≤ md.length ∧ md.length ≤ 2 ∧
    (∀ b ∈ sd, 48 ≤ b ∧ b ≤ 57) ∧ 1 ≤ sd.length ∧ sd.length ≤ 2 ∧
    48 ≤ d ∧ d ≤ 57 ∧
    digitsVal hd ≤ 4095 ∧ digitsVal md ≤ 59 ∧ digitsVal sd ≤ 59 ∧
    t = ⟨digitsVal hd, hd.length, digitsVal md, md.length, digitsVal sd,
      sd.length, d - 48⟩

lemma spec_match_parse (s r : List Nat) (t : Timestamp) (hm : SpecMatch s t) :
    try_parse_timestamp (s ++ r) = ParseOutcome.ok t := by
  obtain ⟨hd, md, sd, d, hs, hhd, hh1, hh4, hmd, hm1, hm2, hsd, hs1, hs2,
    hd48, hd57, hhv, hmv, hsv, ht⟩ := hm
  subst hs
  subst ht
  have hre : (35 :: (hd ++ 58 :: (md ++ 58 :: (sd ++ [45, d, 35])))) ++ r =
      35 :: (hd ++ 58 :: (md ++ 58 :: (sd ++ 45 :: d :: 35 :: r))) := by
    simp
  rw [hre]
  unfold try_parse_timestamp
  rw [try_parse_struct_pattern hd md sd d r hhd
    (by intro hc; rw [hc] at hh1; simp at hh1) hmd
    (by intro hc; rw [hc] at hm1; simp at hm1) hsd
    (by intro hc; rw [hc] at hs1; simp at hs1) ⟨hd48, hd57⟩ hhv hmv hsv]
  simp only [new_with_input_len_pos (digitsVal hd) hd.length (digitsVal md)
    md.length (digitsVal sd) sd.length (d - 48) hhv hh1 hh4 hmv hm1 hm2 hsv
    hs1 hs2 (by omega)]

/-- C7 counterexample: the buffer `#1:2:3-4#` carries a well-formed
timestamp of the claimed notation at offset 0, yet `extract_all` returns
no entry at all, because the scan only attempts offsets that leave a full
12-byte window. -/
theorem C7_cex_short_buffer_missed :
    SpecMatch (asciiBytes "#1:2:3-4#") ⟨1, 1, 2, 1, 3, 1, 4⟩ ∧
    extract_timestamps (asciiBytes "#1:2:3-4#") = some [] := by
  constructor
  · refine ⟨[49], [50], [51], 52, ?_, ?_, ?_, ?_, ?_, ?_, ?_, ?_, ?_, ?_,
      ?_, ?_, ?_, ?_, ?_, ?_⟩ <;> decide
  · decide

/-- C7 amended: for every byte offset at which a well-formed timestamp of
the notation begins, provided its textual form fits in the 12-byte scan
window and a full window starts at that offset (`o + 12 ≤ len`), the
extraction (when it does not panic) contains the entry `(offset,
timestamp)`, and all returned entries are in strictly increasing offset
order. -/
theorem C7_extract_complete_sorted (buf : List Nat) (o n : Nat)
    (t : Timestamp) (l : List (Nat × Timestamp))
    (hm : SpecMatch ((buf.drop o).take n) t)
    (hn : n ≤ F4_MAX_TIMESTAMP_LEN)
    (ho : o + F4_MAX_TIMESTAMP_LEN ≤ buf.length)
    (he : extract_timestamps buf = some l) :
    (o, t) ∈ l ∧ List.Pairwise (fun p q : Nat × Timestamp => p.1 < q.1) l := by
  refine ⟨?_, extract_sorted buf l he⟩
  have hsplit : (buf.drop o).take F4_MAX_TIMESTAMP_LEN =
      (buf.drop o).take n ++
        ((buf.drop o).drop n).take (F4_MAX_TIMESTAMP_LEN - n) := by
    rw [← List.take_add]
    congr 1
    omega
  exact extract_mem buf l o t he ho
    (by rw [hsplit]; exact spec_match_parse _ _ t hm)

/-- C7 witness: the amended completeness theorem applied to the concrete
buffer `#1:2:3-4#abc` at offset 0. -/
theorem C7_extract_witness :
    (0, (⟨1, 1, 2, 1, 3, 1, 4⟩ : Timestamp)) ∈
      [((0 : Nat), (⟨1, 1, 2, 1, 3, 1, 4⟩ : Timestamp))] ∧
    List.Pairwise (fun p q : Nat × Timestamp => p.1 < q.1)
      [((0 : Nat), (⟨1, 1, 2, 1, 3, 1, 4⟩ : Timestamp))] :=
  C7_extract_complete_sorted (asciiBytes "#1:2:3-4#abc") 0 9
    ⟨1, 1, 2, 1, 3, 1, 4⟩ [(0, ⟨1, 1, 2, 1, 3, 1, 4⟩)]
    (by
      refine ⟨[49], [50], [51], 52, ?_, ?_, ?_, ?_, ?_, ?_, ?_, ?_, ?_, ?_,
        ?_, ?_, ?_, ?_, ?_, ?_⟩ <;> decide)
    (by decide) (by decide) (by decide)

/-- Spec-side statement of `rewrite_with_shift` (from the claim's words):
the output is the verbatim content with each extracted match replaced by
the formatting of match + shift. -/
def specRewrite (content : List Nat) (sh : Timestamp) :
    List (Nat × Timestamp) → Nat → Option (List Nat)
  | [], lo => some (content.drop lo)
  | (o, t) :: rest, lo =>
    match Timestamp.add t sh with
    | none => none
    | some a =>
      match specRewrite content sh rest (o + t.len) with
      | none => none
      | some tail => some (bslice content lo o ++ ts_format a ++ tail)

lemma chain_offsets_le (l : List (Nat × Timestamp)) :
    ∀ a : Nat × Timestamp,
    List.Chain' (fun p q : Nat × Timestamp => p.1 + p.2.len ≤ q.1) (a :: l) →
    ∀ p ∈ l, a.1 + a.2.len ≤ p.1 := by
  induction l with
  | nil =>
    intro a _ p hp
    simp at hp
  | cons b rest ih =>
    intro a h p hp
    have hab : a.1 + a.2.len ≤ b.1 := (List.chain'_cons.mp h).1
    rcases List.mem_cons.mp hp with rfl | hp2
    · exact hab
    · have hb := ih b (List.chain'_cons.mp h).2 p hp2
      omega

lemma lastAdj_match (sh : Timestamp) (o : Nat) (t : Timestamp)
    (rest : List (Nat × Timestamp)) (la : Option Timestamp) (a : Timestamp)
    (ha : Timestamp.add t sh = some a) :
    (match ((o, t) :: rest).getLast? with
     | none => la
     | some p => Timestamp.add p.2 sh) =
    (match rest.getLast? with
     | none => some a
     | some p => Timestamp.add p.2 sh) := by
  cases rest with
  | nil => simp [ha]
  | cons q qs =>
    rw [List.getLast?_cons_cons]
    obtain ⟨x, hx⟩ : ∃ x, (q :: qs).getLast? = some x := by
      cases hq : (q :: qs).getLast? with
      | none =>
        rw [List.getLast?_eq_none_iff] at hq
        exact List.noConfusion hq
      | some x => exact ⟨x, rfl⟩
    rw [hx]

lemma rewrite_go_spec (content : List Nat) (sh : Timestamp) :
    ∀ (l : List (Nat × Timestamp)) (lo : Nat) (la : Option Timestamp),
    List.Chain' (fun p q : Nat × Timestamp => p.1 + p.2.len ≤ q.1) l →
    (∀ p ∈ l, (Timestamp.add p.2 sh).isSome) →
    (∀ p ∈ l, lo ≤ p.1) →
    ∃ out, specRewrite content sh l lo = some out ∧
      rewrite_go content sh lo la l = some (out,
        match l.getLast? with
        | none => la
        | some p => Timestamp.add p.2 sh) := by
  intro l
  induction l with
  | nil =>
    intro lo la _ _ _
    exact ⟨content.drop lo, rfl, rfl⟩
  | cons ot rest ih =>
    intro lo la hchain hadd hlo
    obtain ⟨o, t⟩ := ot
    have hloo : lo ≤ o := hlo (o, t) (List.mem_cons_self _ _)
    obtain ⟨a, ha⟩ := Option.isSome_iff_exists.mp
      (hadd (o, t) (List.mem_cons_self _ _))
    have hrest_lo : ∀ p ∈ rest, o + t.len ≤ p.1 :=
      fun p hp => chain_offsets_le rest (o, t) hchain p hp
    obtain ⟨out, hspec, hgo⟩ := ih (o + t.len) (some a) hchain.tail
      (fun p hp => hadd p (List.mem_cons_of_mem _ hp)) hrest_lo
    refine ⟨bslice content lo o ++ ts_format a ++ out, ?_, ?_⟩
    · simp only [specRewrite, ha, hspec]
    · simp only [rewrite_go, if_pos hloo, ha, hgo]
      rw [lastAdj_match sh o t rest la a ha]

/-- C4 counterexample: on `#1:2:3-4#1:2:3-4#abc` the two extracted matches
overlap (offsets 0 and 8, first match 9 bytes long), so the slice
`content[last_offset..offset]` panics — refuting "apart from I/O errors of
the sink it never fails". -/
theorem C4_cex_overlapping_matches_panic :
    write_with_adjusted_timestamps (asciiBytes "#1:2:3-4#1:2:3-4#abc")
      Timestamp.zero = none := by
  decide

/-- C4 amended: whenever the extracted matches are pairwise non-overlapping
and every match survives the shift addition (no hours overflow), the
rewrite succeeds, the output is the content verbatim except that each
match is replaced by `format(match + shift)`, and the returned value is
the last shifted timestamp (none when there is no match). -/
theorem C4_rewrite_verbatim_outside_matches (content : List Nat)
    (sh : Timestamp) (l : List (Nat × Timestamp))
    (he : extract_timestamps content = some l)
    (hchain : List.Chain' (fun p q : Nat × Timestamp => p.1 + p.2.len ≤ q.1) l)
    (hadd : ∀ p ∈ l, (Timestamp.add p.2 sh).isSome) :
    ∃ out, specRewrite content sh l 0 = some out ∧
      write_with_adjusted_timestamps content sh = some (out,
        match l.getLast? with
        | none => none
        | some p => Timestamp.add p.2 sh) := by
  obtain ⟨out, h1, h2⟩ := rewrite_go_spec content sh l 0 none hchain hadd
    (fun p _ => Nat.zero_le _)
  refine ⟨out, h1, ?_⟩
  unfold write_with_adjusted_timestamps
  simp only [he]
  exact h2

/-- C4 witness: the amended rewrite theorem at the concrete content
`ab#00:00:01-0#cd` shifted by one minute. -/
theorem C4_rewrite_witness :
    ∃ out, specRewrite (asciiBytes "ab#00:00:01-0#cd") ⟨0, 2, 1, 2, 0, 2, 0⟩
        [(2, ⟨0, 2, 0, 2, 1, 2, 0⟩)] 0 = some out ∧
      write_with_adjusted_timestamps (asciiBytes "ab#00:00:01-0#cd")
          ⟨0, 2, 1, 2, 0, 2, 0⟩ = some (out,
        match ([(2, (⟨0, 2, 0, 2, 1, 2, 0⟩ : Timestamp))]).getLast? with
        | none => none
        | some p => Timestamp.add p.2 ⟨0, 2, 1, 2, 0, 2, 0⟩) :=
  C4_rewrite_verbatim_outside_matches _ _ _ (by decide)
    (List.chain'_singleton _) (by decide)

lemma new_with_input_len_some (h hl m ml s sl ss ssl : Nat) (t : Timestamp)
    (he : Timestamp.new_with_input_len h hl m ml s sl ss ssl = some t) :
    t = ⟨h, hl, m, ml, s, sl, ss⟩ ∧ ssl = 1 ∧ t.Valid := by
  unfold Timestamp.new_with_input_len at he
  split at he
  · next hc1 =>
    split at he
    · next hc2 =>
      split at he
      · next hc3 =>
        split at he
        · next hc4 =>
          cases he
          exact ⟨rfl, hc1.1,
            hc2.1, hc2.2.1, hc2.2.2, hc3.1, hc3.2.1, hc3.2.2,
            hc4.1, hc4.2.1, hc4.2.2, hc1.2⟩
        · exact Option.noConfusion he
      · exact Option.noConfusion he
    · exact Option.noConfusion he
  · exact Option.noConfusion he

lemma parse_number_go_len (l : List Nat) :
    ∀ n c n2 c2 : Nat, ∀ rest2 : List Nat,
    parse_number_go l n c = (n2, c2, rest2) →
    c ≤ c2 ∧ l.length = (c2 - c) + rest2.length := by
  induction l with
  | nil =>
    intro n c n2 c2 rest2 h
    simp only [parse_number_go, Prod.mk.injEq] at h
    obtain ⟨h1, h2, h3⟩ := h
    subst h2
    subst h3
    simp
  | cons b rest ih =>
    intro n c n2 c2 rest2 h
    simp only [parse_number_go] at h
    split at h
    · next d heq =>
      have h2 := ih (n * 10 + d) (c + 1) n2 c2 rest2 h
      simp only [List.length_cons]
      omega
    · next =>
      simp only [Prod.mk.injEq] at h
      obtain ⟨h1, h2, h3⟩ := h
      subst h2
      subst h3
      simp only [List.length_cons]
      omega

lemma parse_number_len (bs : List Nat) (mx n cnt : Nat) (rest : List Nat)
    (h : parse_number bs mx = some (n, cnt, rest)) :
    1 ≤ cnt ∧ bs.length = cnt + rest.length := by
  cases bs with
  | nil => exact Option.noConfusion h
  | cons b bs2 =>
    simp only [parse_number] at h
    split at h
    · exact Option.noConfusion h
    · next d heq =>
      split at h
      · next hle =>
        injection h with h2
        have hgo := parse_number_go_len bs2 d 1 n cnt rest h2
        simp only [List.length_cons]
        omega
      · exact Option.noConfusion h

lemma expect_byte_some (bs : List Nat) (e : Nat) (rest : List Nat)
    (h : expect_byte bs e = some rest) : bs = e :: rest := by
  cases bs with
  | nil => exact Option.noConfusion h
  | cons b bs2 =>
    simp only [expect_byte] at h
    split at h
    · next heq =>
      cases h
      rw [heq]
    · exact Option.noConfusion h

lemma expect_byte_len (bs : List Nat) (e : Nat) (rest : List Nat)
    (h : expect_byte bs e = some rest) : bs.length = 1 + rest.length := by
  rw [expect_byte_some bs e rest h]
  simp [Nat.add_comm]

lemma try_parse_struct_len (bs : List Nat) (h hl m ml s sl d dl : Nat)
    (hp : try_parse_struct bs = some (h, hl, m, ml, s, sl, d, dl)) :
    5 + hl + ml + sl + dl ≤ bs.length := by
  unfold try_parse_struct at hp
  split at hp
  · exact Option.noConfusion hp
  · next r0 h0 =>
    split at hp
    · exact Option.noConfusion hp
    · next h2 hl2 r1 h1 =>
      split at hp
      · exact Option.noConfusion hp
      · next r2 he2 =>
        split at hp
        · exact Option.noConfusion hp
        · next m2 ml2 r3 h3 =>
          split at hp
          · exact Option.noConfusion hp
          · next r4 he4 =>
            split at hp
            · exact Option.noConfusion hp
            · next s2 sl2 r5 h5 =>
              split at hp
              · exact Option.noConfusion hp
              · next r6 he6 =>
                split at hp
                · exact Option.noConfusion hp
                · next d2 dl2 r7 h7 =>
                  split at hp
                  · exact Option.noConfusion hp
                  · next r8 he8 =>
                    cases hp
                    have l0 := expect_byte_len bs 35 r0 h0
                    have l1 := parse_number_len r0 4095 h hl r1 h1
                    have l2 := expect_byte_len r1 58 r2 he2
                    have l3 := parse_number_len r2 59 m ml r3 h3
                    have l4 := expect_byte_len r3 58 r4 he4
                    have l5 := parse_number_len r4 59 s sl r5 h5
                    have l6 := expect_byte_len r5 45 r6 he6
                    have l7 := parse_number_len r6 9 d dl r7 h7
                    have l8 := expect_byte_len r7 35 r8 he8
                    omega

lemma try_parse_ok_len_valid (bs : List Nat) (t : Timestamp)
    (hp : try_parse_timestamp bs = ParseOutcome.ok t) :
    t.len ≤ bs.length ∧ t.Valid := by
  unfold try_parse_timestamp at hp
  split at hp
  · exact ParseOutcome.noConfusion hp
  · next h hl m ml s sl d dl heq =>
    split at hp
    · next t2 hnew =>
      cases hp
      obtain ⟨hteq, hdl, hvalid⟩ :=
        new_with_input_len_some h hl m ml s sl d dl _ hnew
      have hlen := try_parse_struct_len bs h hl m ml s sl d dl heq
      subst hteq
      refine ⟨?_, hvalid⟩
      unfold Timestamp.len
      simp only
      omega
    · exact ParseOutcome.noConfusion hp

lemma add_zero_of_valid (t : Timestamp) (hv : t.Valid) :
    Timestamp.add t Timestamp.zero =
      some ⟨t.hours, if t.hours < 100 then 2 else 3, t.minutes, 2, t.seconds,
        2, t.subsecs⟩ := by
  obtain ⟨hh, _, _, hm, _, _, hs, _, _, hss⟩ := hv
  have hz1 : Timestamp.zero.subsecs = 0 := rfl
  have hz2 : Timestamp.zero.seconds = 0 := rfl
  have hz3 : Timestamp.zero.minutes = 0 := rfl
  have hz4 : Timestamp.zero.hours = 0 := rfl
  simp only [Timestamp.add, carrying_add, hz1, hz2, hz3, hz4]
  have e1 : (t.subsecs + 0) % 10 = t.subsecs := by omega
  have e2 : (t.subsecs + 0) / 10 = 0 := by omega
  rw [e1, e2]
  have e3 : (0 + t.seconds + 0) % 60 = t.seconds := by omega
  have e4 : (0 + t.seconds + 0) / 60 = 0 := by omega
  rw [e3, e4]
  have e5 : (0 + t.minutes + 0) % 60 = t.minutes := by omega
  have e6 : (0 + t.minutes + 0) / 60 = 0 := by omega
  rw [e5, e6]
  have e7 : 0 + t.hours + 0 = t.hours := by omega
  rw [e7]
  unfold Timestamp.new
  rw [new_with_input_len_pos t.hours (if t.hours < 100 then 2 else 3)
    t.minutes 2 t.seconds 2 t.subsecs hh (by split <;> omega)
    (by split <;> omega) hm (by omega) (by omega) hs (by omega) (by omega)
    hss]

lemma ts_format_fields (h hl hl2 m ml ml2 s sl sl2 ss : Nat) :
    ts_format ⟨h, hl, m, ml, s, sl, ss⟩ = ts_format ⟨h, hl2, m, ml2, s, sl2, ss⟩ :=
  rfl

lemma bslice_append_drop (L : List Nat) (lo o e : Nat) (h1 : lo ≤ o)
    (h2 : o ≤ e) :
    bslice L lo o ++ bslice L o e ++ L.drop e = L.drop lo := by
  rw [List.append_assoc]
  unfold bslice
  have key : ∀ (A : List Nat) (x y : Nat),
      A.take x ++ ((A.drop x).take y ++ (A.drop x).drop y) = A := by
    intro A x y
    rw [List.take_append_drop, List.take_append_drop]
  have hdrop : L.drop o = (L.drop lo).drop (o - lo) := by
    rw [List.drop_drop]
    congr 1
    omega
  have he2 : L.drop e = ((L.drop lo).drop (o - lo)).drop (e - o) := by
    rw [List.drop_drop, List.drop_drop]
    congr 1
    omega
  rw [hdrop, he2, key]

lemma rewrite_go_id (content : List Nat) :
    ∀ (l : List (Nat × Timestamp)) (lo : Nat) (la : Option Timestamp),
    (∀ p ∈ l, p.2.Valid ∧
      bslice content p.1 (p.1 + p.2.len) = ts_format p.2) →
    List.Chain' (fun p q : Nat × Timestamp => p.1 + p.2.len ≤ q.1) l →
    (∀ p ∈ l, lo ≤ p.1) →
    ∃ la2, rewrite_go content Timestamp.zero lo la l =
      some (content.drop lo, la2) := by
  intro l
  induction l with
  | nil =>
    intro lo la _ _ _
    exact ⟨la, rfl⟩
  | cons ot rest ih =>
    intro lo la hprops hchain hlo
    obtain ⟨o, t⟩ := ot
    obtain ⟨hv, hcanon⟩ := hprops (o, t) (List.mem_cons_self _ _)
    have hloo : lo ≤ o := hlo (o, t) (List.mem_cons_self _ _)
    have ha := add_zero_of_valid t hv
    have hrest_lo : ∀ p ∈ rest, o + t.len ≤ p.1 :=
      fun p hp => chain_offsets_le rest (o, t) hchain p hp
    obtain ⟨la2, hgo⟩ := ih (o + t.len)
      (some ⟨t.hours, if t.hours < 100 then 2 else 3, t.minutes, 2,
        t.seconds, 2, t.subsecs⟩)
      (fun p hp => hprops p (List.mem_cons_of_mem _ hp)) hchain.tail hrest_lo
    refine ⟨la2, ?_⟩
    simp only [rewrite_go, if_pos hloo, ha, hgo]
    have hfmt : ts_format (⟨t.hours, if t.hours < 100 then 2 else 3,
        t.minutes, 2, t.seconds, 2, t.subsecs⟩ : Timestamp) = ts_format t := by
      unfold ts_format
      rfl
    have hcanon2 : bslice content o (o + t.len) = ts_format t := hcanon
    rw [hfmt, ← hcanon2, bslice_append_drop content lo o (o + t.len) hloo
      (by omega)]

/-- Boolean non-overlap check on an extracted match list. -/
def nonOverlapB : List (Nat × Timestamp) → Bool
  | [] => true
  | [_] => true
  | p :: q :: rest => decide (p.1 + p.2.len ≤ q.1) && nonOverlapB (q :: rest)

lemma nonOverlapB_chain : ∀ l : List (Nat × Timestamp),
    nonOverlapB l = true →
    List.Chain' (fun p q : Nat × Timestamp => p.1 + p.2.len ≤ q.1) l
  | [] => fun _ => List.chain'_nil
  | [p] => fun _ => List.chain'_singleton p
  | p :: q :: rest => by
    intro h
    simp only [nonOverlapB, Bool.and_eq_true, decide_eq_true_eq] at h
    exact List.chain'_cons.mpr ⟨h.1, nonOverlapB_chain (q :: rest) h.2⟩

/-- Canonical content: extraction succeeds, matches are non-overlapping,
and every timestamp occurrence is written exactly in canonical form. -/
def canonicalContentB (content : List Nat) : Bool :=
  match extract_timestamps content with
  | none => false
  | some l =>
    nonOverlapB l &&
    l.all (fun p => bslice content p.1 (p.1 + p.2.len) == ts_format p.2)

lemma rewrite_zero_id (content : List Nat)
    (hc : canonicalContentB content = true) :
    ∃ x, write_with_adjusted_timestamps content Timestamp.zero =
      some (content, x) := by
  unfold canonicalContentB at hc
  cases he : extract_timestamps content with
  | none => rw [he] at hc; exact Bool.noConfusion hc
  | some l =>
    rw [he] at hc
    rw [Bool.and_eq_true] at hc
    obtain ⟨hchainb, hallb⟩ := hc
    have hchain := nonOverlapB_chain l hchainb
    have hall := List.all_eq_true.mp hallb
    have hprops : ∀ p ∈ l, p.2.Valid ∧
        bslice content p.1 (p.1 + p.2.len) = ts_format p.2 := by
      intro p hp
      obtain ⟨hok, _⟩ := extract_entries content l he p.1 p.2
        (by rw [Prod.mk.eta]; exact hp)
      refine ⟨(try_parse_ok_len_valid _ _ hok).2, ?_⟩
      have := hall p hp
      rwa [beq_iff_eq] at this
    obtain ⟨la2, hgo⟩ := rewrite_go_id content l 0 none hprops hchain
      (fun p _ => Nat.zero_le _)
    refine ⟨la2, ?_⟩
    unfold write_with_adjusted_timestamps
    simp only [he]
    rw [hgo]
    rfl

/-- Hypotheses under which a classified line's emission is byte-exact: the
line's wrapper is the canonical preamble/epilogue, every timestamp
occurrence is canonically formatted and matches do not overlap, and (for
an utterance) the speech span carries no surrounding whitespace. -/
def lineRoundtripHypB (line : List Nat) : Bool :=
  match parse_line line with
  | Line.Paragraph content =>
    (line == LINE_PREAMBLE_B ++ content ++ LINE_EPILOGUE_B) &&
    canonicalContentB content
  | Line.Utterance u =>
    (line == LINE_PREAMBLE_B ++ (u.speaker_before ++ u.speaker ++
        u.speaker_after ++ u.speech ++ u.speech_after) ++ LINE_EPILOGUE_B) &&
    (trimBytes u.speech == u.speech) &&
    canonicalContentB u.speech
  | Line.Other _ => false

set_option maxHeartbeats 2000000 in
/-- C3 amended: a line classified as Utterance or Paragraph is reproduced
byte-for-byte (up to the trailing CRLF) by the zero-shift emission
provided its wrapper bytes are exactly the canonical ones, its timestamps
are canonically formatted and non-overlapping, and an utterance's speech
span is already trimmed; in general the emission additionally
canonicalizes the wrapper, trims the speech span and canonicalizes
timestamp digit widths. -/
theorem C3_canonical_line_zero_shift_roundtrip (line : List Nat)
    (h : lineRoundtripHypB line = true) :
    Line.write_adjusted (parse_line line) Timestamp.zero =
      some (line ++ [13, 10]) := by
  unfold lineRoundtripHypB at h
  cases hp : parse_line line with
  | Other l => rw [hp] at h; exact Bool.noConfusion h
  | Paragraph content =>
    rw [hp] at h
    rw [Bool.and_eq_true] at h
    obtain ⟨hline, hcanon⟩ := h
    rw [beq_iff_eq] at hline
    obtain ⟨x, hw⟩ := rewrite_zero_id content hcanon
    simp only [Line.write_adjusted, paragraph_write_adjusted, hw]
    rw [hline]
  | Utterance u =>
    rw [hp] at h
    rw [Bool.and_eq_true, Bool.and_eq_true] at h
    obtain ⟨⟨hline, htrim⟩, hcanon⟩ := h
    rw [beq_iff_eq] at hline
    rw [beq_iff_eq] at htrim
    obtain ⟨x, hw⟩ := rewrite_zero_id u.speech hcanon
    have hempty : write_with_adjusted_timestamps (trimBytes [])
        Timestamp.zero = some ([], none) := rfl
    simp only [Line.write_adjusted, Utterance.write_adjusted,
      Utterance.write_adjusted_with_extra_speech, htrim, hw, hempty]
    rw [hline]
    simp [List.append_assoc]

/-- C3 counterexample: the line with the accepted alternative wrapper
`\f1` (taken from the repository's own test fixture shape) classifies as
a Paragraph, contains no timestamp at all, and yet its zero-shift
emission differs from the original line: the wrapper is canonicalized to
`\f0`.  This refutes both byte-exact zero-shift reproduction and
"differs only where timestamps are rewritten". -/
theorem C3_cex_alt_wrapper_canonicalized :
    parse_line
        (asciiBytes "\x7b\\f1 \\fs24 \\ul0 \\b0 \\i0 \\cf0 hi\\par\x7d") =
      Line.Paragraph (asciiBytes "hi") ∧
    Line.write_adjusted
        (parse_line
          (asciiBytes "\x7b\\f1 \\fs24 \\ul0 \\b0 \\i0 \\cf0 hi\\par\x7d"))
        Timestamp.zero =
      some (asciiBytes "\x7b\\f0 \\fs24 \\ul0 \\b0 \\i0 \\cf0 hi\\par\x7d"
        ++ [13, 10]) ∧
    asciiBytes "\x7b\\f0 \\fs24 \\ul0 \\b0 \\i0 \\cf0 hi\\par\x7d"
        ++ [13, 10] ≠
      asciiBytes "\x7b\\f1 \\fs24 \\ul0 \\b0 \\i0 \\cf0 hi\\par\x7d"
        ++ [13, 10] := by
  refine ⟨by decide, by decide, by decide⟩

/-- C3 witness: the amended round-trip theorem applied to a concrete
canonical utterance line carrying one canonical timestamp. -/
theorem C3_roundtrip_witness :
    Line.write_adjusted
        (parse_line (asciiBytes
          "\x7b\\f0 \\fs24 \\ul0 \\b0 \\i0 \\cf0 Z: Hi #00:00:01-0#\\par\x7d"))
        Timestamp.zero =
      some (asciiBytes
          "\x7b\\f0 \\fs24 \\ul0 \\b0 \\i0 \\cf0 Z: Hi #00:00:01-0#\\par\x7d"
        ++ [13, 10]) :=
  C3_canonical_line_zero_shift_roundtrip _ (by decide)

lemma head_dropWhile_false (p : Nat → Bool) :
    ∀ (l : List Nat) (b : Nat), (List.dropWhile p l).head? = some b →
      p b = false := by
  intro l
  induction l with
  | nil => intro b hb; exact Option.noConfusion hb
  | cons c rest ih =>
    intro b hb
    rw [List.dropWhile_cons] at hb
    split at hb
    · exact ih b hb
    · next hc =>
      rw [List.head?_cons, Option.some.injEq] at hb
      subst hb
      exact Bool.of_not_eq_true hc

lemma dropWhile_head_false (p : Nat → Bool) (l : List Nat)
    (h : ∀ b, l.head? = some b → p b = false) :
    List.dropWhile p l = l := by
  cases l with
  | nil => rfl
  | cons c rest =>
    rw [List.dropWhile_cons, if_neg]
    rw [h c rfl]
    simp

lemma dropWhile_idem (p : Nat → Bool) (l : List Nat) :
    List.dropWhile p (List.dropWhile p l) = List.dropWhile p l :=
  dropWhile_head_false p _ (head_dropWhile_false p l)

lemma trimBytes_idem (l : List Nat) :
    trimBytes (trimBytes l) = trimBytes l := by
  unfold trimBytes
  have hstep1 :
      (((l.dropWhile isWsp).reverse.dropWhile isWsp).reverse).dropWhile
        isWsp =
      ((l.dropWhile isWsp).reverse.dropWhile isWsp).reverse := by
    apply dropWhile_head_false
    intro b hb
    rw [List.head?_reverse] at hb
    have hne : (l.dropWhile isWsp).reverse.dropWhile isWsp ≠ [] := by
      intro hcon
      rw [hcon] at hb
      exact Option.noConfusion hb
    obtain ⟨pre, hpre⟩ :=
      List.dropWhile_suffix (l := (l.dropWhile isWsp).reverse) (p := isWsp)
    rw [← List.getLast?_append_of_ne_nil pre hne, hpre,
      List.getLast?_reverse] at hb
    exact head_dropWhile_false isWsp l b hb
  rw [hstep1, List.reverse_reverse, dropWhile_idem]

/-- C1 amended: when the previous document's last line and the current
document's first line are both utterances with equal trimmed speakers,
the boundary emission is one single line: the previous utterance's
wrapper and speaker label written once, its own speech rewritten at its
own shift, then — only when the current utterance's trimmed speech is
non-empty — a single separating space, then the current speech rewritten
at the current document's shift, closed by the previous utterance's
trailing bytes and one line terminator. -/
theorem C1_splice_single_line (lp lf : Line) (u v : Utterance)
    (ps cs : Timestamp) (o1 o2 : List Nat) (r1 r2 : Option Timestamp)
    (h1 : lp.utterance = some u) (h2 : lf.utterance = some v)
    (hsp : trimBytes u.speaker = trimBytes v.speaker)
    (hw1 : write_with_adjusted_timestamps (trimBytes u.speech) ps =
      some (o1, r1))
    (hw2 : write_with_adjusted_timestamps (trimBytes v.speech) cs =
      some (o2, r2)) :
    write_last_and_first_line (some (lp, ps)) lf cs =
      some (LINE_PREAMBLE_B ++ u.speaker_before ++ u.speaker ++
        u.speaker_after ++ o1 ++
        (if (trimBytes v.speech).isEmpty then [] else [32]) ++ o2 ++
        u.speech_after ++ LINE_EPILOGUE_B ++ [13, 10]) := by
  unfold write_last_and_first_line
  simp only [h1, h2]
  rw [if_pos hsp]
  unfold Utterance.write_adjusted_with_extra_speech
  rw [trimBytes_idem]
  simp only [hw1, hw2]

/-- C1 counterexample: a same-speaker boundary where the current
utterance's speech trims to the empty string (line content `Z: `): the
code emits no separating space, so the emission is not "the previous
utterance … followed by a single separating space and the current
utterance's speech text" as claimed. -/
theorem C1_cex_empty_speech_drops_space :
    parse_line
        (asciiBytes "\x7b\\f0 \\fs24 \\ul0 \\b0 \\i0 \\cf0 Z: Hello\\par\x7d") =
      Line.Utterance ⟨[], [90], [58, 32], asciiBytes "Hello", []⟩ ∧
    parse_line
        (asciiBytes "\x7b\\f0 \\fs24 \\ul0 \\b0 \\i0 \\cf0 Z: \\par\x7d") =
      Line.Utterance ⟨[], [90], [58, 32], [], []⟩ ∧
    write_last_and_first_line
        (some (parse_line
          (asciiBytes "\x7b\\f0 \\fs24 \\ul0 \\b0 \\i0 \\cf0 Z: Hello\\par\x7d"),
          Timestamp.zero))
        (parse_line
          (asciiBytes "\x7b\\f0 \\fs24 \\ul0 \\b0 \\i0 \\cf0 Z: \\par\x7d"))
        Timestamp.zero =
      some (asciiBytes "\x7b\\f0 \\fs24 \\ul0 \\b0 \\i0 \\cf0 Z: Hello\\par\x7d"
        ++ [13, 10]) ∧
    asciiBytes "\x7b\\f0 \\fs24 \\ul0 \\b0 \\i0 \\cf0 Z: Hello\\par\x7d"
        ++ [13, 10] ≠
      asciiBytes "\x7b\\f0 \\fs24 \\ul0 \\b0 \\i0 \\cf0 Z: Hello \\par\x7d"
        ++ [13, 10] := by
  refine ⟨by decide, by decide, by decide, by decide⟩

/-- C1 witness: the amended splice theorem applied to two concrete
same-speaker utterances with non-empty speech. -/
theorem C1_splice_witness :
    write_last_and_first_line
        (some (Line.Utterance ⟨[], [90], [58, 32], asciiBytes "Hello", []⟩,
          Timestamp.zero))
        (Line.Utterance ⟨[], [90], [58, 32], asciiBytes "World", []⟩)
        Timestamp.zero =
      some (LINE_PREAMBLE_B ++ [] ++ [90] ++ [58, 32] ++ asciiBytes "Hello" ++
        (if (trimBytes (asciiBytes "World")).isEmpty then [] else [32]) ++
        asciiBytes "World" ++ [] ++ LINE_EPILOGUE_B ++ [13, 10]) :=
  C1_splice_single_line
    (Line.Utterance ⟨[], [90], [58, 32], asciiBytes "Hello", []⟩)
    (Line.Utterance ⟨[], [90], [58, 32], asciiBytes "World", []⟩)
    ⟨[], [90], [58, 32], asciiBytes "Hello", []⟩
    ⟨[], [90], [58, 32], asciiBytes "World", []⟩
    Timestamp.zero Timestamp.zero (asciiBytes "Hello") (asciiBytes "World")
    none none rfl rfl (by decide) (by decide) (by decide)

theorem mergeLoop_loopShift : ∀ (ts : List Transcript)
    (last : Option Transcript) (sh : Timestamp) (out : List Nat)
    (lt : Option Transcript) (shf : Timestamp),
    mergeLoop last sh ts = some (out, lt, shf) →
    loopShift last sh ts = some shf := by
  intro ts
  induction ts with
  | nil =>
    intro last sh out lt shf h
    simp only [mergeLoop, Option.some.injEq, Prod.mk.injEq] at h
    simp only [loopShift, h.2.2]
  | cons t rest ih =>
    intro last sh out lt shf h
    simp only [mergeLoop] at h
    split at h
    · exact absurd h (by simp)
    · next ns heq =>
      split at h
      · exact absurd h (by simp)
      · next o1 hw =>
        split at h
        · exact absurd h (by simp)
        · next oR l2 s2 hrest =>
          simp only [Option.some.injEq, Prod.mk.injEq] at h
          simp only [loopShift, heq]
          rw [← h.2.2]
          exact ih (some t) ns oR l2 s2 hrest

theorem loopShift_fold : ∀ (rest : List Transcript) (a : Transcript)
    (sh : Timestamp),
    loopShift (some a) sh rest =
      List.foldlM Timestamp.add sh
        (((a :: rest).dropLast).map Transcript.interview_end_time) := by
  intro rest
  induction rest with
  | nil =>
    intro a sh
    simp [loopShift, List.foldlM]
  | cons b r2 ih =>
    intro a sh
    rw [show (a :: b :: r2).dropLast = a :: (b :: r2).dropLast from rfl]
    simp only [List.map_cons, List.foldlM_cons]
    simp only [loopShift, Option.map_some', Option.getD_some]
    cases hadd : Timestamp.add sh a.interview_end_time with
    | none => simp [hadd]
    | some ns => simp [hadd, ih b ns]

theorem loopShift_entry (ts : List Transcript) (hne : ts ≠ []) :
    loopShift none Timestamp.zero ts =
      List.foldlM Timestamp.add Timestamp.zero
        (ts.dropLast.map Transcript.interview_end_time) := by
  cases ts with
  | nil => exact absurd rfl hne
  | cons t rest =>
    have hzz : Timestamp.add Timestamp.zero Timestamp.zero =
        some Timestamp.zero := by decide
    simp only [loopShift, Option.map_none', Option.getD_none, hzz]
    exact loopShift_fold rest t Timestamp.zero

theorem mergeLoop_append : ∀ (xs ys : List Transcript)
    (last : Option Transcript) (sh : Timestamp),
    mergeLoop last sh (xs ++ ys) =
      match mergeLoop last sh xs with
      | none => none
      | some (o1, l1, s1) =>
        match mergeLoop l1 s1 ys with
        | none => none
        | some (o2, l2, s2) => some (o1 ++ o2, l2, s2) := by
  intro xs
  induction xs with
  | nil =>
    intro ys last sh
    simp only [List.nil_append, mergeLoop]
    cases h : mergeLoop last sh ys with
    | none => rfl
    | some v =>
      obtain ⟨o2, l2, s2⟩ := v
      simp
  | cons t xs2 ih =>
    intro ys last sh
    simp only [List.cons_append, mergeLoop]
    cases hadd : Timestamp.add sh
        ((last.map Transcript.interview_end_time).getD Timestamp.zero) with
    | none => rfl
    | some ns =>
      simp only []
      cases hw : write_next_except_last_line (last.map fun lt => (lt, sh))
          (t, ns) with
      | none => rfl
      | some o =>
        simp only [List.append_eq]
        simp only [ih ys (some t) ns]
        cases h1 : mergeLoop (some t) ns xs2 with
        | none => rfl
        | some v1 =>
          obtain ⟨o1, l1, s1⟩ := v1
          simp only []
          cases h2 : mergeLoop l1 s1 ys with
          | none => rfl
          | some v2 =>
            obtain ⟨o2, l2, s2⟩ := v2
            simp [List.append_assoc]

theorem dropLast_take_transcripts (l : List Transcript) (i : Nat)
    (hi : i < l.length) :
    (l.take (i + 1)).dropLast = l.take i := by
  rw [List.take_succ]
  cases hg : l[i]? with
  | none =>
    rw [List.getElem?_eq_none_iff] at hg
    omega
  | some x =>
    rw [show (some x).toList = [x] from rfl, List.dropLast_concat]

theorem try_from_end_time (raw : List Nat) (t : Transcript)
    (h : transcript_try_from raw = some t) :
    ∃ u, rust_last_timestamp raw = some (some u) ∧
      u.round_up = some t.interview_end_time := by
  simp only [transcript_try_from] at h
  split at h
  · exact absurd h (by simp)
  · split at h
    · split at h
      · split at h
        · exact absurd h (by simp)
        · exact absurd h (by simp)
        · next u heq2 =>
          split at h
          · exact absurd h (by simp)
          · next e heq3 =>
            refine ⟨u, heq2, ?_⟩
            rw [heq3]
            cases h
            rfl
      · exact absurd h (by simp)
    · exact absurd h (by simp)

/-- C2: in a merge of loaded documents, the shift applied to document
`i` (0-based; document `D(i+1)` of the claim) is the monadic sum of the
rounded-up end-times of the preceding documents — zero for the first
document, with each panic-free addition accumulated left to right — and
each loaded document's recorded end-time is `round_up` of the last
timestamp found anywhere in its raw file.  The first conjunct exhibits
the loop state after consuming documents `0..i`: its shift component
`sh` is exactly the shift `write_next_except_last_line` receives for
document `i`, and `sh` equals the fold of `Timestamp.add` over the end
times of documents `0..i-1`. -/
theorem C2_shift_is_sum_of_rounded_end_times
    (raws : List (List Nat)) (ts : List Transcript)
    (hload : List.Forall₂ (fun r t => transcript_try_from r = some t)
      raws ts)
    (i : Nat) (hi : i < ts.length)
    (hrun : (write_merged_transcript ts).isSome = true) :
    (∃ outP lt sh, mergeLoop none Timestamp.zero (ts.take (i + 1)) =
        some (outP, lt, sh) ∧
      List.foldlM Timestamp.add Timestamp.zero
        ((ts.take i).map Transcript.interview_end_time) = some sh) ∧
    List.Forall₂ (fun r t => ∃ u, rust_last_timestamp r = some (some u) ∧
      u.round_up = some t.interview_end_time) raws ts := by
  constructor
  · obtain ⟨out, hout⟩ := Option.isSome_iff_exists.mp hrun
    cases ts with
    | nil => exact absurd hi (by simp)
    | cons t0 tr =>
      have hml : ∃ o l s, mergeLoop none Timestamp.zero (t0 :: tr) =
          some (o, l, s) := by
        simp only [write_merged_transcript] at hout
        cases hm : mergeLoop none Timestamp.zero (t0 :: tr) with
        | none => rw [hm] at hout; exact absurd hout (by simp)
        | some v =>
          obtain ⟨o1, l1, s1⟩ := v
          exact ⟨o1, l1, s1, rfl⟩
      obtain ⟨o, l, s, hm⟩ := hml
      have hsplit := mergeLoop_append ((t0 :: tr).take (i + 1))
        ((t0 :: tr).drop (i + 1)) none Timestamp.zero
      rw [List.take_append_drop, hm] at hsplit
      cases hpre : mergeLoop none Timestamp.zero ((t0 :: tr).take (i + 1))
          with
      | none => rw [hpre] at hsplit; exact absurd hsplit (by simp)
      | some v =>
        obtain ⟨oP, lP, sP⟩ := v
        refine ⟨oP, lP, sP, rfl, ?_⟩
        have hls := mergeLoop_loopShift _ none Timestamp.zero oP lP sP hpre
        have hnil : (t0 :: tr).take (i + 1) ≠ [] := by simp
        rw [loopShift_entry _ hnil,
          dropLast_take_transcripts _ i hi] at hls
        exact hls
  · exact hload.imp (fun a b h => try_from_end_time a b h)

theorem C2_shift_sum_witness :
    (∃ outP lt sh, mergeLoop none Timestamp.zero
          ([(⟨asciiBytes "\\jexpand\r\n", asciiBytes "xx#00:00:01-0#yy",
              ⟨0, 2, 1, 2, 0, 2, 0⟩⟩ : Transcript),
            ⟨asciiBytes "\\jexpand\r\n", asciiBytes "ab#00:00:02-0#cd",
              ⟨0, 2, 1, 2, 0, 2, 0⟩⟩].take (1 + 1)) =
        some (outP, lt, sh) ∧
      List.foldlM Timestamp.add Timestamp.zero
        (([(⟨asciiBytes "\\jexpand\r\n", asciiBytes "xx#00:00:01-0#yy",
              ⟨0, 2, 1, 2, 0, 2, 0⟩⟩ : Transcript),
            ⟨asciiBytes "\\jexpand\r\n", asciiBytes "ab#00:00:02-0#cd",
              ⟨0, 2, 1, 2, 0, 2, 0⟩⟩].take 1).map
          Transcript.interview_end_time) = some sh) ∧
    List.Forall₂ (fun (r : List Nat) (t : Transcript) =>
        ∃ u, rust_last_timestamp r = some (some u) ∧
          u.round_up = some t.interview_end_time)
      [asciiBytes "\\jexpand\r\nxx#00:00:01-0#yy\r\n\x7d",
       asciiBytes "\\jexpand\r\nab#00:00:02-0#cd\r\n\x7d"]
      [⟨asciiBytes "\\jexpand\r\n", asciiBytes "xx#00:00:01-0#yy",
          ⟨0, 2, 1, 2, 0, 2, 0⟩⟩,
        ⟨asciiBytes "\\jexpand\r\n", asciiBytes "ab#00:00:02-0#cd",
          ⟨0, 2, 1, 2, 0, 2, 0⟩⟩] :=
  C2_shift_is_sum_of_rounded_end_times
    [asciiBytes "\\jexpand\r\nxx#00:00:01-0#yy\r\n\x7d",
     asciiBytes "\\jexpand\r\nab#00:00:02-0#cd\r\n\x7d"]
    [⟨asciiBytes "\\jexpand\r\n", asciiBytes "xx#00:00:01-0#yy",
        ⟨0, 2, 1, 2, 0, 2, 0⟩⟩,
      ⟨asciiBytes "\\jexpand\r\n", asciiBytes "ab#00:00:02-0#cd",
        ⟨0, 2, 1, 2, 0, 2, 0⟩⟩]
    (List.Forall₂.cons (by decide)
      (List.Forall₂.cons (by decide) List.Forall₂.nil))
    1 (by decide) (by decide)


theorem mergeLoop_append_some (xs ys : List Transcript)
    (last : Option Transcript) (sh : Timestamp) (o1 : List Nat)
    (l1 : Option Transcript) (s1 : Timestamp)
    (h1 : mergeLoop last sh xs = some (o1, l1, s1)) :
    mergeLoop last sh (xs ++ ys) =
      match mergeLoop l1 s1 ys with
      | none => none
      | some (o2, l2, s2) => some (o1 ++ o2, l2, s2) := by
  rw [mergeLoop_append, h1]

/-- C10: for every document `d` with exactly one Line `L` in any merge
`pre ++ d :: suf` that succeeds, the merge engine emits that line twice.
First, at `d`'s own boundary step: the loop reaches `d` with previous
document `lastDoc` and shift `sh_i`, and the entire output of
`write_next_except_last_line` for `d` is exactly
`write_last_and_first_line` applied to the withheld previous line and
`L` — i.e. `L` is handled as the first line, emitted standalone or
spliced into the previous document's last utterance.  Second, `L` is
also `d`'s withheld last line (`getLast?` of its lines), and it is
re-read downstream: when `d` is the final document, the final step after
the loop writes `L.write_adjusted sh_i` into the output; otherwise the
next boundary step receives `(L, sh_i)` as the withheld line and its
output either is `L.write_adjusted sh_i` itself (next document empty) or
begins with `write_last_and_first_line (some (L, sh_i))` applied to the
next document's first line — `L` emitted once more, standalone or
spliced. -/
theorem C10_single_line_document_emitted_twice
    (pre suf : List Transcript) (d : Transcript) (L : Line)
    (hL : transcriptLines d = [L])
    (hrun : (write_merged_transcript (pre ++ d :: suf)).isSome = true) :
    ∃ outP lastDoc shP sh_i oStep,
      mergeLoop none Timestamp.zero pre = some (outP, lastDoc, shP) ∧
      Timestamp.add shP
          ((lastDoc.map Transcript.interview_end_time).getD
            Timestamp.zero) = some sh_i ∧
      write_next_except_last_line (lastDoc.map fun lt => (lt, shP))
          (d, sh_i) = some oStep ∧
      write_last_and_first_line
          ((lastDoc.map fun lt => (lt, shP)).bind
            fun p => ((transcriptLines p.1).getLast?).map fun l =>
              (l, p.2))
          L sh_i = some oStep ∧
      (transcriptLines d).getLast? = some L ∧
      match suf with
      | [] =>
        ∃ allOut w hd tl,
          pre ++ d :: suf = hd :: tl ∧
          mergeLoop none Timestamp.zero (pre ++ d :: suf) =
            some (allOut, some d, sh_i) ∧
          L.write_adjusted sh_i = some w ∧
          write_merged_transcript (pre ++ d :: suf) =
            some (hd.preamble ++ allOut ++ w ++ EPILOGUE_B)
      | next :: _ =>
        ∃ sh2 oNext,
          Timestamp.add sh_i d.interview_end_time = some sh2 ∧
          write_next_except_last_line (some (d, sh_i)) (next, sh2) =
            some oNext ∧
          match transcriptLines next with
          | [] => L.write_adjusted sh_i = some oNext
          | f :: r =>
            ∃ o1 o2,
              write_last_and_first_line (some (L, sh_i)) f sh2 =
                some o1 ∧
              writeLines r.dropLast sh2 = some o2 ∧ oNext = o1 ++ o2 := by
  obtain ⟨out, hout⟩ := Option.isSome_iff_exists.mp hrun
  obtain ⟨hd, tl, hcons⟩ : ∃ hd tl, pre ++ d :: suf = hd :: tl := by
    cases h : pre ++ d :: suf with
    | nil => exact absurd h (by simp)
    | cons a b => exact ⟨a, b, rfl⟩
  have hml : ∃ o l s, mergeLoop none Timestamp.zero (pre ++ d :: suf) =
      some (o, l, s) := by
    rw [hcons] at hout ⊢
    simp only [write_merged_transcript] at hout
    cases hm : mergeLoop none Timestamp.zero (hd :: tl) with
    | none => rw [hm] at hout; exact absurd hout (by simp)
    | some v =>
      obtain ⟨o, l, s⟩ := v
      exact ⟨o, l, s, rfl⟩
  obtain ⟨allOut, ltF, shF, hm⟩ := hml
  cases hpre : mergeLoop none Timestamp.zero pre with
  | none =>
    have h0 := mergeLoop_append pre (d :: suf) none Timestamp.zero
    rw [hm, hpre] at h0
    exact absurd h0 (by simp)
  | some v =>
    obtain ⟨outP, lastDoc, shP⟩ := v
    have hsome := mergeLoop_append_some pre (d :: suf) none Timestamp.zero
      outP lastDoc shP hpre
    rw [hm] at hsome
    cases hdrop : mergeLoop lastDoc shP (d :: suf) with
    | none => rw [hdrop] at hsome; exact absurd hsome (by simp)
    | some v2 =>
      obtain ⟨oDrop, lt2, sh2f⟩ := v2
      rw [hdrop] at hsome
      simp only [Option.some.injEq, Prod.mk.injEq] at hsome
      obtain ⟨hAll, hLt, hShf⟩ := hsome
      subst hAll
      subst hLt
      subst hShf
      simp only [mergeLoop] at hdrop
      split at hdrop
      · exact absurd hdrop (by simp)
      · next sh_i hadd =>
        split at hdrop
        · exact absurd hdrop (by simp)
        · next oStep hstep =>
          split at hdrop
          · exact absurd hdrop (by simp)
          · next oRest ltR shR hrest =>
            simp only [Option.some.injEq, Prod.mk.injEq] at hdrop
            obtain ⟨hODrop, hLtR, hShR⟩ := hdrop
            subst hODrop
            subst hLtR
            subst hShR
            have hfirst : write_last_and_first_line
                ((lastDoc.map fun lt => (lt, shP)).bind
                  fun p => ((transcriptLines p.1).getLast?).map fun l =>
                    (l, p.2))
                L sh_i = some oStep := by
              have hstep2 := hstep
              simp only [write_next_except_last_line, hL] at hstep2
              split at hstep2
              · exact absurd hstep2 (by simp)
              · next o1 hw1 =>
                simp only [List.dropLast_nil, writeLines,
                  Option.some.injEq] at hstep2
                rw [← hstep2, List.append_nil]
                exact hw1
            have hlast : (transcriptLines d).getLast? = some L := by
              rw [hL]
              rfl
            refine ⟨outP, lastDoc, shP, sh_i, oStep, rfl, hadd, hstep,
              hfirst, hlast, ?_⟩
            cases suf with
            | nil =>
              simp only [mergeLoop, Option.some.injEq,
                Prod.mk.injEq] at hrest
              obtain ⟨hOR, hLR, hSR⟩ := hrest
              subst hOR
              subst hLR
              subst hSR
              have hmc := hm
              rw [hcons] at hmc
              rw [hcons] at hout
              simp only [write_merged_transcript, hmc, hlast] at hout
              cases hw : Line.write_adjusted L sh_i with
              | none => rw [hw] at hout; exact absurd hout (by simp)
              | some w =>
                refine ⟨outP ++ (oStep ++ []), w, hd, tl, hcons, hm, rfl,
                  ?_⟩
                rw [hcons]
                simp only [write_merged_transcript, hmc, hlast, hw]
            | cons next rest2 =>
              simp only [mergeLoop] at hrest
              split at hrest
              · exact absurd hrest (by simp)
              · next sh2 hadd2 =>
                split at hrest
                · exact absurd hrest (by simp)
                · next oNext hnext =>
                  refine ⟨sh2, oNext, ?_, hnext, ?_⟩
                  · simpa using hadd2
                  · have hnext2 := hnext
                    simp only [write_next_except_last_line, hL,
                      Option.some_bind, List.getLast?_singleton,
                      Option.map_some'] at hnext2
                    cases hln : transcriptLines next with
                    | nil =>
                      simp only [hln] at hnext2
                      exact hnext2
                    | cons f r =>
                      simp only [hln] at hnext2
                      split at hnext2
                      · exact absurd hnext2 (by simp)
                      · next o1 hw1 =>
                        split at hnext2
                        · exact absurd hnext2 (by simp)
                        · next o2 hw2 =>
                          simp only [Option.some.injEq] at hnext2
                          exact ⟨o1, o2, hw1, hw2, hnext2.symm⟩

theorem C10_double_emission_witness :
    ∃ outP lastDoc shP sh_i oStep,
      mergeLoop none Timestamp.zero ([] : List Transcript) =
        some (outP, lastDoc, shP) ∧
      Timestamp.add shP
          ((lastDoc.map Transcript.interview_end_time).getD
            Timestamp.zero) = some sh_i ∧
      write_next_except_last_line (lastDoc.map fun lt => (lt, shP))
          (⟨asciiBytes "P1", asciiBytes "hello", ⟨0, 2, 1, 2, 0, 2, 0⟩⟩,
            sh_i) = some oStep ∧
      write_last_and_first_line
          ((lastDoc.map fun lt => (lt, shP)).bind
            fun p => ((transcriptLines p.1).getLast?).map fun l =>
              (l, p.2))
          (Line.Other (asciiBytes "hello")) sh_i = some oStep ∧
      (transcriptLines ⟨asciiBytes "P1", asciiBytes "hello",
          ⟨0, 2, 1, 2, 0, 2, 0⟩⟩).getLast? =
        some (Line.Other (asciiBytes "hello")) ∧
      match [(⟨asciiBytes "P2", asciiBytes "world",
          Timestamp.zero⟩ : Transcript)] with
      | [] =>
        ∃ allOut w hd tl,
          [] ++ (⟨asciiBytes "P1", asciiBytes "hello",
              ⟨0, 2, 1, 2, 0, 2, 0⟩⟩ : Transcript) ::
            [⟨asciiBytes "P2", asciiBytes "world", Timestamp.zero⟩] =
            hd :: tl ∧
          mergeLoop none Timestamp.zero
              ([] ++ (⟨asciiBytes "P1", asciiBytes "hello",
                ⟨0, 2, 1, 2, 0, 2, 0⟩⟩ : Transcript) ::
                [⟨asciiBytes "P2", asciiBytes "world", Timestamp.zero⟩]) =
            some (allOut,
              some ⟨asciiBytes "P1", asciiBytes "hello",
                ⟨0, 2, 1, 2, 0, 2, 0⟩⟩, sh_i) ∧
          (Line.Other (asciiBytes "hello")).write_adjusted sh_i =
            some w ∧
          write_merged_transcript
              ([] ++ (⟨asciiBytes "P1", asciiBytes "hello",
                ⟨0, 2, 1, 2, 0, 2, 0⟩⟩ : Transcript) ::
                [⟨asciiBytes "P2", asciiBytes "world", Timestamp.zero⟩]) =
            some (hd.preamble ++ allOut ++ w ++ EPILOGUE_B)
      | next :: _ =>
        ∃ sh2 oNext,
          Timestamp.add sh_i
              (⟨asciiBytes "P1", asciiBytes "hello",
                ⟨0, 2, 1, 2, 0, 2, 0⟩⟩ :
                Transcript).interview_end_time = some sh2 ∧
          write_next_except_last_line
              (some (⟨asciiBytes "P1", asciiBytes "hello",
                ⟨0, 2, 1, 2, 0, 2, 0⟩⟩, sh_i))
              (next, sh2) = some oNext ∧
          match transcriptLines next with
          | [] =>
            (Line.Other (asciiBytes "hello")).write_adjusted sh_i =
              some oNext
          | f :: r =>
            ∃ o1 o2,
              write_last_and_first_line
                  (some (Line.Other (asciiBytes "hello"), sh_i)) f sh2 =
                some o1 ∧
              writeLines r.dropLast sh2 = some o2 ∧ oNext = o1 ++ o2 :=
  C10_single_line_document_emitted_twice []
    [⟨asciiBytes "P2", asciiBytes "world", Timestamp.zero⟩]
    ⟨asciiBytes "P1", asciiBytes "hello", ⟨0, 2, 1, 2, 0, 2, 0⟩⟩
    (Line.Other (asciiBytes "hello")) (by decide) (by decide)
